/-
Verification of the fray repository (resumable OCI image puller) against its
natural-language specification.

This file shallowly embeds the parts of the Go source that the claims touch:

* `Merkle`   — pkg/merkle (chunk-state tree, serialization, state files)
* `Store`    — pkg/store/pull.go (Puller.loadOrCreateTree, saveTree, the
               manifest phase of Puller.Pull) and pkg/store/layout.go
               (Layout.GetStats)
* `Oci`      — the oci package (ParseImageRef, RegistryAuth.loadCredentials)
* `Proxy`    — pkg/proxy (Server.pullImage single-flight map), as a small-step
               interleaving model

Machine integers are modelled as `Nat` (the Go values involved are
non-negative `int`/`int64`/`uint64`; where a 64-bit bound matters it is
carried explicitly, e.g. hash values are `< 2^64`).  Go strings are modelled
as `List Char`; `[]byte` payloads as `List Char` as well.  Fallible Go code
returns `Option`/`Except`.  Filesystem and network effects are made explicit:
file contents become function arguments, and functions that write files
return a trace of filesystem operations.
-/
import Mathlib

namespace Merkle

/-- A leaf hash.  Go: `type Hash uint64`; values are below `2 ^ 64`. -/
abbrev Hash := Nat

/-- Go: `const EmptyHash Hash = 0`. -/
def EmptyHash : Hash := 0

/-- Go: `func (h Hash) IsEmpty() bool { return h == EmptyHash }`. -/
def Hash.IsEmpty (h : Hash) : Bool := h == EmptyHash

/-- Big-endian hex digits (values, not characters) of `v`, zero-padded to
`width` digits.  This models the Go format verb `%016x` used by
`Hash.String`, with a hex digit kept as its numeric value `0..15`. -/
def hexDigitsBE : Nat → Nat → List Nat
  | 0, _ => []
  | width + 1, v => hexDigitsBE width (v / 16) ++ [v % 16]

/-- Go: `func (h Hash) String() string { return fmt.Sprintf("%016x", uint64(h)) }`,
as the list of 16 hex-digit values. -/
def Hash.toHex (h : Hash) : List Nat := hexDigitsBE 16 h

/-- Go: `HashFromHex` = `strconv.ParseUint(s, 16, 64)`: fails on an empty
string, on a non-hex digit, and on overflow past 64 bits. -/
def HashFromHex (s : List Nat) : Option Hash :=
  if s = [] then none
  else if s.all (· < 16) then
    let v := s.foldl (fun a d => a * 16 + d) 0
    if v < 2 ^ 64 then some v else none
  else none

/-- Go: `nextPowerOf2`'s loop `for p < n { p *= 2 }`.  The fuel argument only
bounds the iteration count; `fuel = n` always suffices because `p` at least
doubles each step. -/
def nextPow2Loop : Nat → Nat → Nat → Nat
  | 0, _, p => p
  | fuel + 1, n, p => if p < n then nextPow2Loop fuel n (p * 2) else p

/-- Go: `func nextPowerOf2(n int) int`. -/
def nextPowerOf2 (n : Nat) : Nat :=
  if n ≤ 1 then 1 else nextPow2Loop n n 1

/-- Go: `type Tree struct` in pkg/merkle. -/
structure Tree where
  TotalSize : Nat
  ChunkSize : Nat
  NumChunks : Nat
  Leaves : List Hash
  PresentCount : Nat
  deriving DecidableEq, Repr

/-- Go: `func New(totalSize int64, chunkSize int) *Tree`. -/
def New (totalSize chunkSize : Nat) : Tree :=
  let numChunks := (totalSize + chunkSize - 1) / chunkSize
  { TotalSize := totalSize
    ChunkSize := chunkSize
    NumChunks := numChunks
    Leaves := List.replicate (nextPowerOf2 numChunks) 0
    PresentCount := 0 }

/-- Go: `func (t *Tree) SetChunk(index int, data []byte) error`, with the
xxHash64 of the data supplied as the function `hashData` (the hash is an
external library; every claim here is parametric in it).  Returns the tree
after the call; on the out-of-range error path the tree is unchanged. -/
def SetChunk (hashData : List Char → Hash) (t : Tree) (index : Int)
    (data : List Char) : Tree :=
  if index < 0 ∨ (t.NumChunks : Int) ≤ index then t
  else
    let h := hashData data
    let wasEmpty := (t.Leaves.getD index.toNat 0).IsEmpty
    { t with
      Leaves := t.Leaves.set index.toNat h
      PresentCount := if wasEmpty then t.PresentCount + 1 else t.PresentCount }

/-- Whether `SetChunk` returns an error (Go reports out-of-range). -/
def SetChunkErr (t : Tree) (index : Int) : Bool :=
  decide (index < 0 ∨ (t.NumChunks : Int) ≤ index)

/-- Go: `func (t *Tree) SetChunkHash(index int, h Hash) error`.  Note the
increment is guarded by `wasEmpty && !h.IsEmpty()` but the leaf itself is
assigned unconditionally. -/
def SetChunkHash (t : Tree) (index : Int) (h : Hash) : Tree :=
  if index < 0 ∨ (t.NumChunks : Int) ≤ index then t
  else
    let wasEmpty := (t.Leaves.getD index.toNat 0).IsEmpty
    { t with
      Leaves := t.Leaves.set index.toNat h
      PresentCount :=
        if wasEmpty ∧ ¬h.IsEmpty then t.PresentCount + 1 else t.PresentCount }

/-- Go: `func (t *Tree) ClearChunk(index int)`. -/
def ClearChunk (t : Tree) (index : Int) : Tree :=
  if index < 0 ∨ (t.NumChunks : Int) ≤ index then t
  else if ¬(t.Leaves.getD index.toNat 0).IsEmpty then
    { t with
      Leaves := t.Leaves.set index.toNat EmptyHash
      PresentCount := t.PresentCount - 1 }
  else t

/-- Go: `func (t *Tree) HasChunk(index int) bool`. -/
def HasChunk (t : Tree) (index : Int) : Bool :=
  if index < 0 ∨ (t.NumChunks : Int) ≤ index then false
  else ¬(t.Leaves.getD index.toNat 0).IsEmpty

/-- Go: `func (t *Tree) Complete() bool`. -/
def Complete (t : Tree) : Bool := t.NumChunks ≤ t.PresentCount

/-- One level-up step of `Root`: hash adjacent pairs.  Go iterates
`for i := 0; i < len(level); i += 2`. -/
def pairUpLevel (hashPair : Hash → Hash → Hash) : List Hash → List Hash
  | a :: b :: rest => hashPair a b :: pairUpLevel hashPair rest
  | _ => []

/-- The `for len(level) > 1` loop of `Root`; levels halve each step, so
fuel `= len(leaves)` suffices. -/
def rootLoop (hashPair : Hash → Hash → Hash) : Nat → List Hash → List Hash
  | 0, level => level
  | fuel + 1, level =>
    if 1 < level.length then rootLoop hashPair fuel (pairUpLevel hashPair level)
    else level

/-- Go: `func (t *Tree) Root() Hash`, parametric in the pair-combining hash
(`hashPair` calls xxHash64 over 16 bytes). -/
def Root (hashPair : Hash → Hash → Hash) (t : Tree) : Hash :=
  if t.Leaves = [] then EmptyHash
  else
    match rootLoop hashPair t.Leaves.length t.Leaves with
    | x :: _ => x
    | [] => EmptyHash

/-- Go: `type State struct` — the JSON-serializable tree state.  A leaf is the
hex string of the hash, or the empty string (modelled `[]`) when absent. -/
structure State where
  TotalSize : Nat
  ChunkSize : Nat
  NumChunks : Nat
  PresentCount : Nat
  Root : List Nat
  Leaves : List (List Nat)
  deriving DecidableEq, Repr

/-- The leaf encoding used by `Serialize`: hex for present leaves, the empty
string for absent ones. -/
def encodeLeaf (h : Hash) : List Nat := if ¬h.IsEmpty then h.toHex else []

/-- Go: `func (t *Tree) Serialize() *State`.  The loop reads `t.Leaves[i]`
for `i < t.NumChunks` (valid trees have `NumChunks ≤ len(Leaves)`). -/
def Serialize (hashPair : Hash → Hash → Hash) (t : Tree) : State :=
  { TotalSize := t.TotalSize
    ChunkSize := t.ChunkSize
    NumChunks := t.NumChunks
    PresentCount := t.PresentCount
    Root := (Root hashPair t).toHex
    Leaves := (t.Leaves.take t.NumChunks).map encodeLeaf }

/-- The `for i, hexHash := range s.Leaves` loop of `Deserialize`: threads the
leaf array, the rebuilt present count and the current index.  A hex-parse
failure is Go's error return; an out-of-bounds index (a state file with more
leaves than the rebuilt tree can hold) is a Go panic — both are `none`. -/
def desLoop (leaves : List Hash) (count : Nat) (i : Nat) :
    List (List Nat) → Option (List Hash × Nat)
  | [] => some (leaves, count)
  | hx :: rest =>
    if hx = [] then desLoop leaves count (i + 1) rest
    else
      match HashFromHex hx with
      | none => none
      | some h =>
        if i < leaves.length then desLoop (leaves.set i h) (count + 1) (i + 1) rest
        else none

/-- Go: `func Deserialize(s *State) (*Tree, error)`. -/
def Deserialize (s : State) : Option Tree :=
  let t := New s.TotalSize s.ChunkSize
  (desLoop t.Leaves 0 0 s.Leaves).map fun p =>
    { t with Leaves := p.1, PresentCount := p.2 }

/-- A filesystem operation, for functions whose effect is file writes. -/
inductive FsOp where
  | writeFile (path : List Char) (data : State)
  | rename (src : List Char) (dst : List Char)
  deriving DecidableEq, Repr

/-- Go: `func (t *Tree) SaveToFile(path string) error` — it marshals the
serialized state and calls `os.WriteFile(path, data, 0644)` directly.  The
trace of filesystem operations it performs. -/
def SaveToFileOps (hashPair : Hash → Hash → Hash) (t : Tree)
    (path : List Char) : List FsOp :=
  [FsOp.writeFile path (Serialize hashPair t)]

/-- The number of non-empty leaves among indices `[0, NumChunks)`. -/
def nonEmptyLeafCount (t : Tree) : Nat :=
  ((t.Leaves.take t.NumChunks).filter (fun h => ¬h.IsEmpty)).length

/-- The `present_count` invariant of the spec. -/
def Inv (t : Tree) : Prop := t.PresentCount = nonEmptyLeafCount t

instance (t : Tree) : Decidable (Inv t) := by unfold Inv; infer_instance

/-- A well-formed tree: the shape produced by `New` followed by in-range
updates.  `NumChunks` agrees with the sizes, the leaf array is the
power-of-two allocation, padding leaves beyond `NumChunks` are empty, every
leaf fits in 64 bits, the chunk size is positive, and the present count
matches the leaves. -/
def Valid (t : Tree) : Prop :=
  0 < t.ChunkSize ∧
  t.NumChunks = (t.TotalSize + t.ChunkSize - 1) / t.ChunkSize ∧
  t.Leaves.length = nextPowerOf2 t.NumChunks ∧
  (∀ h ∈ t.Leaves, h < 2 ^ 64) ∧
  (∀ h ∈ t.Leaves.drop t.NumChunks, h = 0) ∧
  Inv t

instance (t : Tree) : Decidable (Valid t) := by
  unfold Valid Inv; infer_instance

/-! ### List helpers used by the merkle proofs -/

theorem getD_take {l : List Hash} {n i : Nat} (h : i < n) :
    (l.take n).getD i 0 = l.getD i 0 := by
  induction l generalizing n i with
  | nil => simp
  | cons x xs ih =>
    cases n with
    | zero => omega
    | succ n =>
      cases i with
      | zero => simp
      | succ i => simpa using ih (by omega)

theorem take_set {l : List Hash} {n i : Nat} (x : Hash) (h : i < n) :
    (l.set i x).take n = (l.take n).set i x := by
  induction l generalizing n i with
  | nil => simp
  | cons y ys ih =>
    cases n with
    | zero => omega
    | succ n =>
      cases i with
      | zero => simp
      | succ i => simpa using ih (by omega)

theorem drop_set {l : List Hash} {n i : Nat} (x : Hash) (h : i < n) :
    (l.set i x).drop n = l.drop n := by
  induction l generalizing n i with
  | nil => simp
  | cons y ys ih =>
    cases n with
    | zero => omega
    | succ n =>
      cases i with
      | zero => simp
      | succ i => simpa using ih (by omega)

theorem getD_set_ne {l : List Hash} {i j : Nat} (x : Hash) (h : i ≠ j) :
    (l.set i x).getD j 0 = l.getD j 0 := by
  induction l generalizing i j with
  | nil => simp
  | cons y ys ih =>
    cases i with
    | zero => cases j with | zero => omega | succ j => simp
    | succ i =>
      cases j with
      | zero => simp
      | succ j => simpa using ih (by omega)

theorem take_succ_getD {l : List Hash} {i : Nat} (h : i < l.length) :
    l.take (i + 1) = l.take i ++ [l.getD i 0] := by
  induction l generalizing i with
  | nil => simp at h
  | cons y ys ih =>
    cases i with
    | zero => simp
    | succ i => simpa using ih (by simpa using Nat.lt_of_succ_lt_succ h)

/-- Count of non-empty hashes in a list. -/
def countNZ (l : List Hash) : Nat := (l.filter (fun h => ¬h.IsEmpty)).length

theorem countNZ_nil : countNZ [] = 0 := rfl

theorem countNZ_cons (x : Hash) (l : List Hash) :
    countNZ (x :: l) = (if x = 0 then 0 else 1) + countNZ l := by
  by_cases hx : x = 0
  · simp [countNZ, hx, Hash.IsEmpty, EmptyHash, List.filter]
  · simp [countNZ, hx, Hash.IsEmpty, EmptyHash, List.filter]
    omega

theorem countNZ_replicate (n : Nat) : countNZ (List.replicate n 0) = 0 := by
  induction n with
  | zero => rfl
  | succ n ih => simpa [countNZ_cons] using ih

theorem countNZ_append (l₁ l₂ : List Hash) :
    countNZ (l₁ ++ l₂) = countNZ l₁ + countNZ l₂ := by
  simp [countNZ, List.filter_append]

/-- Overwriting an empty slot with a non-empty hash raises the non-empty
count by one. -/
theorem countNZ_set_new {l : List Hash} {i : Nat} {x : Hash}
    (hi : i < l.length) (hold : l.getD i 0 = 0) (hx : x ≠ 0) :
    countNZ (l.set i x) = countNZ l + 1 := by
  induction l generalizing i with
  | nil => simp at hi
  | cons y ys ih =>
    cases i with
    | zero =>
      simp only [List.getD_cons_zero] at hold
      simp [countNZ_cons, hold, hx, Nat.add_comm]
    | succ i =>
      have := ih (i := i) (by simpa using Nat.lt_of_succ_lt_succ hi)
        (by simpa using hold)
      show countNZ (y :: ys.set i x) = countNZ (y :: ys) + 1
      simp only [countNZ_cons, this]
      omega

/-- Overwriting a slot such that emptiness is unchanged keeps the count. -/
theorem countNZ_set_same {l : List Hash} {i : Nat} {x : Hash}
    (hiff : l.getD i 0 = 0 ↔ x = 0) :
    countNZ (l.set i x) = countNZ l := by
  induction l generalizing i with
  | nil => simp
  | cons y ys ih =>
    cases i with
    | zero =>
      simp only [List.getD_cons_zero] at hiff
      by_cases hx : x = 0
      · simp [countNZ_cons, hx, hiff.mpr hx]
      · have hy : ¬y = 0 := fun hy => hx (hiff.mp hy)
        simp [countNZ_cons, hx, hy]
    | succ i =>
      have := ih (i := i) (by simpa using hiff)
      show countNZ (y :: ys.set i x) = countNZ (y :: ys)
      simp only [countNZ_cons, this]

/-- Clearing a non-empty slot lowers the non-empty count by one. -/
theorem countNZ_set_clear {l : List Hash} {i : Nat}
    (hi : i < l.length) (hold : l.getD i 0 ≠ 0) :
    countNZ l = countNZ (l.set i (0 : Hash)) + 1 := by
  induction l generalizing i with
  | nil => simp at hi
  | cons y ys ih =>
    cases i with
    | zero =>
      simp only [List.getD_cons_zero] at hold
      simp [countNZ_cons, hold, Nat.add_comm, Nat.add_assoc]
    | succ i =>
      have := ih (i := i) (by simpa using Nat.lt_of_succ_lt_succ hi)
        (by simpa using hold)
      show countNZ (y :: ys) = countNZ (y :: ys.set i 0) + 1
      simp only [countNZ_cons, this]
      omega

/-! ### Hex round trip -/

theorem hexDigitsBE_length (w v : Nat) : (hexDigitsBE w v).length = w := by
  induction w generalizing v with
  | zero => rfl
  | succ w ih => simp [hexDigitsBE, ih]

theorem hexDigitsBE_lt (w v : Nat) : ∀ d ∈ hexDigitsBE w v, d < 16 := by
  induction w generalizing v with
  | zero => simp [hexDigitsBE]
  | succ w ih =>
    intro d hd
    simp only [hexDigitsBE, List.mem_append, List.mem_singleton] at hd
    rcases hd with hd | hd
    · exact ih _ _ hd
    · subst hd; exact Nat.mod_lt _ (by omega)

theorem foldl_hexDigitsBE (w : Nat) :
    ∀ v a, v < 16 ^ w →
      (hexDigitsBE w v).foldl (fun acc d => acc * 16 + d) a = a * 16 ^ w + v := by
  induction w with
  | zero => intro v a hv; interval_cases v; simp [hexDigitsBE]
  | succ w ih =>
    intro v a hv
    have hdiv : v / 16 < 16 ^ w := by
      rw [Nat.div_lt_iff_lt_mul (by omega)]
      calc v < 16 ^ (w + 1) := hv
        _ = 16 ^ w * 16 := by ring
    simp only [hexDigitsBE, List.foldl_append, List.foldl_cons, List.foldl_nil,
      ih (v / 16) a hdiv]
    have : v % 16 + 16 * (v / 16) = v := Nat.mod_add_div v 16
    ring_nf
    omega

theorem HashFromHex_toHex {h : Hash} (hlt : h < 2 ^ 64) :
    HashFromHex (Hash.toHex h) = some h := by
  have hne : Hash.toHex h ≠ [] := by
    intro he
    have := hexDigitsBE_length 16 h
    rw [show hexDigitsBE 16 h = Hash.toHex h from rfl, he] at this
    simp at this
  have hall : (Hash.toHex h).all (· < 16) := by
    rw [List.all_eq_true]
    intro d hd
    simpa using hexDigitsBE_lt 16 h d hd
  have h16 : h < 16 ^ 16 := by
    have he : (16 : Nat) ^ 16 = 2 ^ 64 := by norm_num
    rw [he]; exact hlt
  have hfold : (Hash.toHex h).foldl (fun acc d => acc * 16 + d) 0 = h := by
    have := foldl_hexDigitsBE 16 h 0 h16
    simpa using this
  simp only [HashFromHex, hne, if_false, hall, if_true, hfold, hlt]

/-! ### More list helpers -/

theorem take_set_succ {l : List Hash} {i : Nat} (x : Hash) (h : i < l.length) :
    (l.set i x).take (i + 1) = l.take i ++ [x] := by
  induction l generalizing i with
  | nil => simp at h
  | cons y ys ih =>
    cases i with
    | zero => simp
    | succ i => simpa using ih (by simpa using Nat.lt_of_succ_lt_succ h)

theorem getD_drop (l : List Hash) (m j : Nat) :
    (l.drop m).getD j 0 = l.getD (m + j) 0 := by
  induction l generalizing m with
  | nil => simp
  | cons y ys ih =>
    cases m with
    | zero => simp
    | succ m =>
      rw [List.drop_succ_cons]
      rw [show m + 1 + j = m + j + 1 by omega]
      rw [List.getD_cons_succ]
      exact ih m

theorem all_zero_of_getD {l : List Hash} (h : ∀ j, l.getD j 0 = 0) :
    ∀ x ∈ l, x = 0 := by
  induction l with
  | nil => simp
  | cons y ys ih =>
    intro x hx
    rcases List.mem_cons.mp hx with hx | hx
    · subst hx; exact h 0
    · exact ih (fun j => h (j + 1)) x hx

theorem getD_replicate_zero (k j : Nat) :
    (List.replicate k (0 : Hash)).getD j 0 = 0 := by
  induction k generalizing j with
  | zero => simp
  | succ k ih =>
    cases j with
    | zero => simp
    | succ j => exact ih j

theorem drop_replicate (k m : Nat) :
    (List.replicate k (0 : Hash)).drop m = List.replicate (k - m) 0 := by
  induction k generalizing m with
  | zero => simp
  | succ k ih =>
    cases m with
    | zero => simp
    | succ m =>
      rw [List.replicate_succ, List.drop_succ_cons]
      rw [show k + 1 - (m + 1) = k - m by omega]
      exact ih m

theorem countNZ_split (l : List Hash) (n : Nat) :
    countNZ l = countNZ (l.take n) + countNZ (l.drop n) := by
  conv_lhs => rw [← List.take_append_drop n l]
  exact countNZ_append _ _

theorem getD_map_encode (xs : List Hash) (i : Nat) (h : i < xs.length) :
    (xs.map encodeLeaf).getD i [] = encodeLeaf (xs.getD i 0) := by
  induction xs generalizing i with
  | nil => simp at h
  | cons y ys ih =>
    cases i with
    | zero => simp
    | succ i => simpa using ih i (by simpa using Nat.lt_of_succ_lt_succ h)

theorem encodeLeaf_eq_nil_iff (h : Hash) : encodeLeaf h = [] ↔ h = 0 := by
  by_cases h0 : h = 0
  · simp [encodeLeaf, h0, Hash.IsEmpty, EmptyHash]
  · have hlen : (Hash.toHex h).length = 16 := hexDigitsBE_length 16 h
    have henc : encodeLeaf h = Hash.toHex h := by
      simp [encodeLeaf, Hash.IsEmpty, EmptyHash, h0]
    rw [henc]
    constructor
    · intro he; rw [he] at hlen; simp at hlen
    · intro he; exact absurd he h0

theorem desLoop_cons_empty (dst : List Hash) (count i : Nat)
    (rest : List (List Nat)) :
    desLoop dst count i ([] :: rest) = desLoop dst count (i + 1) rest := rfl

theorem desLoop_cons_none {hx : List Nat} (dst : List Hash) (count i : Nat)
    (rest : List (List Nat)) (h : hx ≠ []) (hp : HashFromHex hx = none) :
    desLoop dst count i (hx :: rest) = none := by
  rw [desLoop.eq_def]
  simp only [if_neg h, hp]

theorem desLoop_cons_some {hx : List Nat} {hv : Hash} (dst : List Hash)
    (count i : Nat) (rest : List (List Nat)) (h : hx ≠ [])
    (hp : HashFromHex hx = some hv) :
    desLoop dst count i (hx :: rest) =
      if i < dst.length then desLoop (dst.set i hv) (count + 1) (i + 1) rest
      else none := by
  rw [desLoop.eq_def]
  simp only [if_neg h, hp]

/-- The write pattern performed by `Deserialize`'s loop on leaves coming from
`Serialize`: set the non-empty values at consecutive indices, skip the empty
ones. -/
def writeNZ : List Hash → Nat → List Hash → List Hash
  | dst, _, [] => dst
  | dst, i, x :: rest => writeNZ (if x = 0 then dst else dst.set i x) (i + 1) rest

theorem writeNZ_eq (xs : List Hash) : ∀ (dst : List Hash) (i : Nat),
    i + xs.length ≤ dst.length →
    (∀ j, j < xs.length → dst.getD (i + j) 0 = 0) →
    writeNZ dst i xs = dst.take i ++ xs ++ dst.drop (i + xs.length) := by
  induction xs with
  | nil =>
    intro dst i _ _
    simp only [writeNZ, List.length_nil, Nat.add_zero, List.append_nil]
    exact (List.take_append_drop i dst).symm
  | cons x rest ih =>
    intro dst i hlen hzero
    have hi : i < dst.length := by simp at hlen; omega
    by_cases hx : x = 0
    · have h0 : dst.getD i 0 = 0 := by simpa using hzero 0 (by simp)
      have := ih dst (i + 1)
        (by simp at hlen ⊢; omega)
        (fun j hj => by
          have := hzero (j + 1) (by simp; omega)
          simpa [Nat.add_assoc, Nat.add_comm 1 j] using this)
      rw [writeNZ, if_pos hx, this, take_succ_getD hi, h0, hx]
      simp [Nat.add_assoc, Nat.add_comm 1 rest.length]
    · have hset : (dst.set i x).length = dst.length := by simp
      have := ih (dst.set i x) (i + 1)
        (by simp at hlen ⊢; omega)
        (fun j hj => by
          have hne : i ≠ i + 1 + j := by omega
          rw [getD_set_ne x hne]
          have := hzero (j + 1) (by simp; omega)
          simpa [Nat.add_assoc, Nat.add_comm 1 j] using this)
      rw [writeNZ, if_neg hx, this, take_set_succ x hi,
        drop_set x (by omega)]
      simp [Nat.add_assoc, Nat.add_comm 1 rest.length]

theorem desLoop_serialize (xs : List Hash) : ∀ (dst : List Hash) (i count : Nat),
    (∀ x ∈ xs, x < 2 ^ 64) →
    i + xs.length ≤ dst.length →
    (∀ j, j < xs.length → dst.getD (i + j) 0 = 0) →
    desLoop dst count i (xs.map encodeLeaf) =
      some (writeNZ dst i xs, count + countNZ xs) := by
  induction xs with
  | nil => intro dst i count _ _ _; simp [desLoop, writeNZ, countNZ]
  | cons x rest ih =>
    intro dst i count hb hlen hzero
    have hi : i < dst.length := by simp at hlen; omega
    by_cases hx : x = 0
    · have henc : encodeLeaf x = [] := (encodeLeaf_eq_nil_iff x).mpr hx
      have hrec := ih dst (i + 1) count
        (fun y hy => hb y (List.mem_cons_of_mem _ hy))
        (by simp at hlen ⊢; omega)
        (fun j hj => by
          have := hzero (j + 1) (by simp; omega)
          simpa [Nat.add_assoc, Nat.add_comm 1 j] using this)
      rw [List.map_cons, henc, desLoop_cons_empty, hrec, writeNZ, if_pos hx,
        countNZ_cons, if_pos hx]
      simp
    · have hxlt : x < 2 ^ 64 := hb x (List.mem_cons_self _ _)
      have henc : encodeLeaf x = Hash.toHex x := by
        simp [encodeLeaf, Hash.IsEmpty, EmptyHash, hx]
      have hne : encodeLeaf x ≠ [] := fun h => hx ((encodeLeaf_eq_nil_iff x).mp h)
      have hparse : HashFromHex (encodeLeaf x) = some x := by
        rw [henc]; exact HashFromHex_toHex hxlt
      have hrec := ih (dst.set i x) (i + 1) (count + 1)
        (fun y hy => hb y (List.mem_cons_of_mem _ hy))
        (by simp at hlen ⊢; omega)
        (fun j hj => by
          rw [getD_set_ne x (by omega)]
          have := hzero (j + 1) (by simp; omega)
          simpa [Nat.add_assoc, Nat.add_comm 1 j] using this)
      rw [List.map_cons, desLoop_cons_some dst count i _ hne hparse, if_pos hi,
        hrec, writeNZ, if_neg hx, countNZ_cons, if_neg hx]
      congr 2
      omega

/-- The general behaviour of `Deserialize`'s loop on arbitrary persisted
leaves whose present entries decode to non-empty hashes. -/
theorem desLoop_inv : ∀ (src : List (List Nat)) (dst : List Hash)
    (i count : Nat) (l' : List Hash) (c' : Nat),
    desLoop dst count i src = some (l', c') →
    (∀ hx ∈ src, ∀ h, HashFromHex hx = some h → h ≠ 0) →
    (∀ j, i ≤ j → dst.getD j 0 = 0) →
    countNZ l' = countNZ dst + (c' - count) ∧ count ≤ c' ∧
    l'.length = dst.length ∧
    (∀ j, i + src.length ≤ j → l'.getD j 0 = dst.getD j 0) := by
  intro src
  induction src with
  | nil =>
    intro dst i count l' c' hrun _ _
    simp only [desLoop, Option.some.injEq, Prod.mk.injEq] at hrun
    obtain ⟨h1, h2⟩ := hrun
    subst h1; subst h2
    refine ⟨by omega, le_refl _, rfl, fun j _ => rfl⟩
  | cons hx rest ih =>
    intro dst i count l' c' hrun hgood hzero
    by_cases hhx : hx = []
    · subst hhx
      rw [desLoop_cons_empty] at hrun
      have := ih dst (i + 1) count l' c' hrun
        (fun y hy => hgood y (List.mem_cons_of_mem _ hy))
        (fun j hj => hzero j (by omega))
      refine ⟨this.1, this.2.1, this.2.2.1,
        fun j hj => this.2.2.2 j (by simp at hj ⊢; omega)⟩
    · cases hparse : HashFromHex hx with
      | none =>
        rw [desLoop_cons_none dst count i rest hhx hparse] at hrun
        simp at hrun
      | some h =>
        rw [desLoop_cons_some dst count i rest hhx hparse] at hrun
        by_cases hi : i < dst.length
        · rw [if_pos hi] at hrun
          have hh0 : h ≠ 0 := hgood hx (List.mem_cons_self _ _) h hparse
          have hold : dst.getD i 0 = 0 := hzero i (le_refl i)
          have hcnt : countNZ (dst.set i h) = countNZ dst + 1 :=
            countNZ_set_new hi hold hh0
          have := ih (dst.set i h) (i + 1) (count + 1) l' c' hrun
            (fun y hy => hgood y (List.mem_cons_of_mem _ hy))
            (fun j hj => by
              rw [getD_set_ne h (by omega)]; exact hzero j (by omega))
          obtain ⟨e1, e2, e3, e4⟩ := this
          refine ⟨by rw [e1, hcnt]; omega, by omega, by rw [e3]; simp, ?_⟩
          intro j hj
          rw [e4 j (by simp at hj ⊢; omega), getD_set_ne h (by simp at hj; omega)]
        · rw [if_neg hi] at hrun; simp at hrun

/-- `n ≤ nextPowerOf2 n`: the allocation in `New` always covers the chunks. -/
theorem le_nextPow2Loop : ∀ (fuel n p : Nat), n ≤ 2 ^ fuel * p →
    n ≤ nextPow2Loop fuel n p := by
  intro fuel
  induction fuel with
  | zero => intro n p h; simpa [nextPow2Loop] using h
  | succ fuel ih =>
    intro n p h
    rw [nextPow2Loop]
    by_cases hp : p < n
    · rw [if_pos hp]
      refine ih n (p * 2) ?_
      rw [pow_succ] at h
      exact le_of_le_of_eq h (by ring)
    · rw [if_neg hp]; omega

theorem le_nextPowerOf2 (n : Nat) : n ≤ nextPowerOf2 n := by
  rw [nextPowerOf2]
  by_cases h : n ≤ 1
  · rw [if_pos h]; omega
  · rw [if_neg h]
    exact le_nextPow2Loop n n 1 (by simpa using (Nat.lt_two_pow n).le)

theorem nonEmptyLeafCount_eq (t : Tree) :
    nonEmptyLeafCount t = countNZ (t.Leaves.take t.NumChunks) := rfl

theorem countNZ_eq_zero {l : List Hash} (h : ∀ x ∈ l, x = 0) : countNZ l = 0 := by
  induction l with
  | nil => rfl
  | cons y ys ih =>
    rw [countNZ_cons, if_pos (h y (List.mem_cons_self _ _)),
      ih (fun x hx => h x (List.mem_cons_of_mem _ hx))]

/-! ### The tree operations of claim C3 -/

/-- A public mutating ChunkTree operation. -/
inductive Op where
  | setChunk (index : Int) (data : List Char)
  | setChunkHash (index : Int) (h : Hash)
  | clearChunk (index : Int)

/-- Run one public operation (the state after the Go call returns). -/
def applyOp (hashData : List Char → Hash) (t : Tree) : Op → Tree
  | .setChunk i d => SetChunk hashData t i d
  | .setChunkHash i h => SetChunkHash t i h
  | .clearChunk i => ClearChunk t i

/-- The written hash is non-empty (the condition the amended claim needs:
writing the empty hash over a present leaf breaks the count). -/
def GoodOp (hashData : List Char → Hash) : Op → Prop
  | .setChunk _ d => hashData d ≠ 0
  | .setChunkHash _ h => h ≠ 0
  | .clearChunk _ => True

/-- A persisted state whose present leaves decode to non-empty hashes and
whose leaf list fits in the tree rebuilt from its sizes (both hold for every
state produced by `Serialize` from a valid tree). -/
def GoodState (s : State) : Prop :=
  (∀ hx ∈ s.Leaves, ∀ h, HashFromHex hx = some h → h ≠ 0) ∧
  s.Leaves.length ≤ (s.TotalSize + s.ChunkSize - 1) / s.ChunkSize

theorem inv_New (size chunkSize : Nat) : Inv (New size chunkSize) := by
  show (0 : Nat) = nonEmptyLeafCount (New size chunkSize)
  rw [nonEmptyLeafCount_eq]
  show 0 = countNZ ((List.replicate _ 0).take _)
  rw [List.take_replicate, countNZ_replicate]

/-- Bridge from an in-range `Int` index to the `Nat` position. -/
theorem toNat_lt_of_inRange {t : Tree} {i : Int}
    (h : ¬(i < 0 ∨ (t.NumChunks : Int) ≤ i)) : i.toNat < t.NumChunks := by
  omega

theorem isEmpty_prop {x : Hash} : x.IsEmpty = true ↔ x = 0 :=
  ⟨fun hc => eq_of_beq hc, fun h => by rw [h]; rfl⟩

theorem presentCount_after_set {t : Tree} (hshape : t.NumChunks ≤ t.Leaves.length)
    (hinv : Inv t) {k : Nat} (hk : k < t.NumChunks) {h : Hash} (hh : h ≠ 0) :
    (if t.Leaves.getD k 0 = 0 then t.PresentCount + 1 else t.PresentCount)
      = countNZ ((t.Leaves.set k h).take t.NumChunks) := by
  have htk : (t.Leaves.set k h).take t.NumChunks
      = (t.Leaves.take t.NumChunks).set k h := take_set h hk
  have hklen : k < (t.Leaves.take t.NumChunks).length := by
    rw [List.length_take]; omega
  have hgd : (t.Leaves.take t.NumChunks).getD k 0 = t.Leaves.getD k 0 :=
    getD_take hk
  have hpc : t.PresentCount = countNZ (t.Leaves.take t.NumChunks) := hinv
  rw [htk]
  by_cases he : t.Leaves.getD k 0 = 0
  · rw [if_pos he, countNZ_set_new hklen (hgd.trans he) hh, ← hpc]
  · rw [if_neg he,
      countNZ_set_same (by
        rw [hgd]
        exact ⟨fun hx => absurd hx he, fun hx => absurd hx hh⟩),
      ← hpc]

theorem inv_applyOp (hashData : List Char → Hash) (t : Tree) (op : Op)
    (hshape : t.NumChunks ≤ t.Leaves.length) (hinv : Inv t)
    (hgood : GoodOp hashData op) : Inv (applyOp hashData t op) := by
  cases op with
  | setChunk i d =>
    have hh : hashData d ≠ 0 := hgood
    show Inv (SetChunk hashData t i d)
    rw [SetChunk]
    by_cases hr : i < 0 ∨ (t.NumChunks : Int) ≤ i
    · rw [if_pos hr]; exact hinv
    · rw [if_neg hr]
      have hk := toNat_lt_of_inRange hr
      show (if (t.Leaves.getD i.toNat 0).IsEmpty then t.PresentCount + 1
            else t.PresentCount)
          = countNZ ((t.Leaves.set i.toNat (hashData d)).take t.NumChunks)
      rw [if_congr isEmpty_prop rfl rfl]
      exact presentCount_after_set hshape hinv hk hh
  | setChunkHash i h =>
    have hh : h ≠ 0 := hgood
    show Inv (SetChunkHash t i h)
    rw [SetChunkHash]
    by_cases hr : i < 0 ∨ (t.NumChunks : Int) ≤ i
    · rw [if_pos hr]; exact hinv
    · rw [if_neg hr]
      have hk := toNat_lt_of_inRange hr
      show (if ((t.Leaves.getD i.toNat 0).IsEmpty ∧ ¬Hash.IsEmpty h) then
              t.PresentCount + 1
            else t.PresentCount)
          = countNZ ((t.Leaves.set i.toNat h).take t.NumChunks)
      have hcond : (((t.Leaves.getD i.toNat 0).IsEmpty = true)
            ∧ ¬(Hash.IsEmpty h = true))
          ↔ t.Leaves.getD i.toNat 0 = 0 := by
        rw [isEmpty_prop]
        exact ⟨fun hc => hc.1, fun hc => ⟨hc, fun hx => hh (isEmpty_prop.mp hx)⟩⟩
      rw [if_congr hcond rfl rfl]
      exact presentCount_after_set hshape hinv hk hh
  | clearChunk i =>
    show Inv (ClearChunk t i)
    rw [ClearChunk]
    by_cases hr : i < 0 ∨ (t.NumChunks : Int) ≤ i
    · rw [if_pos hr]; exact hinv
    · rw [if_neg hr]
      have hk := toNat_lt_of_inRange hr
      by_cases he : (t.Leaves.getD i.toNat 0) = 0
      · rw [if_neg (fun hc => hc (isEmpty_prop.mpr he))]
        exact hinv
      · rw [if_pos (fun hc => he (isEmpty_prop.mp hc))]
        have htk : (t.Leaves.set i.toNat EmptyHash).take t.NumChunks
            = (t.Leaves.take t.NumChunks).set i.toNat 0 := take_set _ hk
        have hklen : i.toNat < (t.Leaves.take t.NumChunks).length := by
          rw [List.length_take]; omega
        have hgd : (t.Leaves.take t.NumChunks).getD i.toNat 0
            = t.Leaves.getD i.toNat 0 := getD_take hk
        have hclear := countNZ_set_clear hklen (hgd.trans_ne he)
        have hpc : t.PresentCount = countNZ (t.Leaves.take t.NumChunks) := hinv
        show t.PresentCount - 1
            = countNZ ((t.Leaves.set i.toNat EmptyHash).take t.NumChunks)
        rw [htk]
        omega

theorem inv_Deserialize (s : State) (t' : Tree) (hg : GoodState s)
    (hd : Deserialize s = some t') : Inv t' := by
  obtain ⟨hgood, hfit⟩ := hg
  rw [Deserialize] at hd
  cases hrun : desLoop (New s.TotalSize s.ChunkSize).Leaves 0 0 s.Leaves with
  | none => rw [hrun] at hd; simp at hd
  | some p =>
    rw [hrun] at hd
    simp only [Option.map_some', Option.some.injEq] at hd
    obtain ⟨l', c'⟩ := p
    have hspec := desLoop_inv s.Leaves (New s.TotalSize s.ChunkSize).Leaves
      0 0 l' c' hrun hgood
      (fun j _ => by
        show (List.replicate _ (0 : Hash)).getD j 0 = 0
        exact getD_replicate_zero _ j)
    obtain ⟨hcnt, _, hlen', hrest⟩ := hspec
    have hrep : countNZ (New s.TotalSize s.ChunkSize).Leaves = 0 := by
      show countNZ (List.replicate _ 0) = 0
      exact countNZ_replicate _
    rw [hrep, Nat.zero_add, Nat.sub_zero] at hcnt
    subst hd
    show c' = nonEmptyLeafCount _
    rw [nonEmptyLeafCount_eq]
    have hn : (New s.TotalSize s.ChunkSize).NumChunks
        = (s.TotalSize + s.ChunkSize - 1) / s.ChunkSize := rfl
    have hdropz : ∀ x ∈ l'.drop ((s.TotalSize + s.ChunkSize - 1) / s.ChunkSize),
        x = 0 := by
      refine all_zero_of_getD (fun j => ?_)
      rw [getD_drop]
      rw [hrest _ (by omega)]
      show (List.replicate _ (0 : Hash)).getD _ 0 = 0
      exact getD_replicate_zero _ _
    have := countNZ_split l' ((s.TotalSize + s.ChunkSize - 1) / s.ChunkSize)
    rw [countNZ_eq_zero hdropz] at this
    show c' = countNZ (l'.take ((s.TotalSize + s.ChunkSize - 1) / s.ChunkSize))
    omega

/-- C3 (amended): `present_count` equals the number of non-empty leaves
after `new`, after `set_chunk`/`set_chunk_hash`/`clear_chunk` provided the
hash being written is non-empty, and after deserialization of persisted
state whose present leaves decode to non-empty hashes and fit the rebuilt
tree.  (As literally stated the claim is false: see the counterexample,
where `set_chunk_hash` writes the empty hash over a present leaf.) -/
theorem presentCount_invariant (hashData : List Char → Hash) :
    (∀ size chunkSize, Inv (New size chunkSize)) ∧
    (∀ t op, t.NumChunks ≤ t.Leaves.length → Inv t → GoodOp hashData op →
      Inv (applyOp hashData t op)) ∧
    (∀ s t', GoodState s → Deserialize s = some t' → Inv t') :=
  ⟨inv_New, fun t op hs hi hg => inv_applyOp hashData t op hs hi hg,
    fun s t' hg hd => inv_Deserialize s t' hg hd⟩

/-- Witness for C3's amended theorem at a concrete input. -/
theorem presentCount_invariant_witness :
    Inv (applyOp (fun _ => 1) (New 10 5) (Op.setChunkHash 0 7)) :=
  (presentCount_invariant (fun _ => 1)).2.1 (New 10 5) (Op.setChunkHash 0 7)
    (by decide) (by decide) (by exact (by decide : (7 : Hash) ≠ 0))

/-- C3 counterexample: start from `New 10 5` (two chunks), set chunk 0 with
hash 7, then call `SetChunkHash 0` with the empty hash `0`.  The leaf
becomes empty but `present_count` stays 1, so the invariant fails after a
public operation. -/
theorem presentCount_counterexample :
    ¬ Inv (SetChunkHash (SetChunkHash (New 10 5) 0 7) 0 0) := by decide

/-! ### Claim C4: how SaveToFile writes the state file -/

/-- The write pattern that claim C4 asserts: the serialized state goes to a
sibling path (never directly to the target), which is then renamed over the
target. -/
def SiblingRenameSave (ops : List FsOp) (target : List Char) : Prop :=
  (∀ p d, FsOp.writeFile p d ∈ ops → p ≠ target) ∧
  ∃ tmp, tmp ≠ target ∧ FsOp.rename tmp target ∈ ops

/-- C4 counterexample: `SaveToFile` writes the marshalled state directly to
the target path — there is no sibling write and no rename. -/
theorem saveToFile_counterexample :
    ¬ SiblingRenameSave
      (SaveToFileOps (fun a b => a + b) (New 10 5) ['s']) ['s'] := by
  intro hc
  exact hc.1 ['s'] (Serialize (fun a b => a + b) (New 10 5))
    (by simp [SaveToFileOps]) rfl

/-- C4 (amended): `SaveToFile` performs exactly one filesystem operation — a
direct `os.WriteFile` of the serialized state to the target path — and never
renames, so an interrupted write can clobber a previously good state file. -/
theorem saveToFile_direct_write (hashPair : Hash → Hash → Hash) (t : Tree)
    (path : List Char) :
    SaveToFileOps hashPair t path
      = [FsOp.writeFile path (Serialize hashPair t)] ∧
    ∀ src dst, FsOp.rename src dst ∉ SaveToFileOps hashPair t path := by
  refine ⟨rfl, ?_⟩
  intro src dst hmem
  simp [SaveToFileOps] at hmem

/-! ### Claim C5: Deserialize ∘ Serialize is the identity on valid trees -/

/-- C5: for every valid ChunkTree (empty, all-full or sparse),
`Deserialize (Serialize t)` succeeds and returns exactly `t` — total size,
chunk size, chunk count, leaf array and present count included — and in the
serialized form a leaf is the empty sentinel iff the in-memory leaf is
absent. -/
theorem deserialize_serialize_id (hashPair : Hash → Hash → Hash) (t : Tree)
    (hv : Valid t) :
    Deserialize (Serialize hashPair t) = some t ∧
    ∀ i, i < t.NumChunks →
      (((Serialize hashPair t).Leaves.getD i []) = [] ↔ t.Leaves.getD i 0 = 0) := by
  obtain ⟨hcs, hnc, hlen, hbound, hpad, hinv⟩ := hv
  have hn_le : t.NumChunks ≤ t.Leaves.length := by
    rw [hlen]; exact le_nextPowerOf2 t.NumChunks
  constructor
  · have hxs_len : (t.Leaves.take t.NumChunks).length = t.NumChunks := by
      rw [List.length_take]; omega
    have hP_ge : t.NumChunks ≤ nextPowerOf2 t.NumChunks := le_nextPowerOf2 _
    have hrun := desLoop_serialize (t.Leaves.take t.NumChunks)
      (List.replicate (nextPowerOf2 t.NumChunks) 0) 0 0
      (fun x hx => hbound x (List.take_subset _ _ hx))
      (by rw [List.length_replicate, hxs_len]; omega)
      (fun j _ => by rw [Nat.zero_add]; exact getD_replicate_zero _ j)
    have hw : writeNZ (List.replicate (nextPowerOf2 t.NumChunks) 0) 0
        (t.Leaves.take t.NumChunks) = t.Leaves := by
      rw [writeNZ_eq (t.Leaves.take t.NumChunks)
        (List.replicate (nextPowerOf2 t.NumChunks) 0) 0
        (by rw [List.length_replicate, hxs_len]; omega)
        (fun j _ => by rw [Nat.zero_add]; exact getD_replicate_zero _ j)]
      rw [List.take_zero, List.nil_append, Nat.zero_add, hxs_len,
        drop_replicate]
      have hdrop : t.Leaves.drop t.NumChunks
          = List.replicate (nextPowerOf2 t.NumChunks - t.NumChunks) 0 := by
        rw [List.eq_replicate_iff]
        exact ⟨by rw [List.length_drop, hlen], hpad⟩
      conv_rhs => rw [← List.take_append_drop t.NumChunks t.Leaves, hdrop]
    have hcount : countNZ (t.Leaves.take t.NumChunks) = t.PresentCount := by
      rw [Inv, nonEmptyLeafCount_eq] at hinv
      omega
    show Deserialize (Serialize hashPair t) = some t
    rw [Deserialize]
    have hsLeaves : (Serialize hashPair t).Leaves
        = (t.Leaves.take t.NumChunks).map encodeLeaf := rfl
    have hsTS : (Serialize hashPair t).TotalSize = t.TotalSize := rfl
    have hsCS : (Serialize hashPair t).ChunkSize = t.ChunkSize := rfl
    rw [hsLeaves, hsTS, hsCS]
    have hNewLeaves : (New t.TotalSize t.ChunkSize).Leaves
        = List.replicate (nextPowerOf2 t.NumChunks) 0 := by
      show List.replicate (nextPowerOf2 ((t.TotalSize + t.ChunkSize - 1) / t.ChunkSize)) (0 : Hash) = _
      rw [← hnc]
    rw [hNewLeaves, hrun, hw, hcount]
    simp only [Option.map_some', Option.some.injEq, Nat.zero_add]
    show ({ TotalSize := t.TotalSize, ChunkSize := t.ChunkSize,
            NumChunks := (t.TotalSize + t.ChunkSize - 1) / t.ChunkSize,
            Leaves := t.Leaves, PresentCount := t.PresentCount } : Tree) = t
    rw [← hnc]
  · intro i hi
    have hsLeaves : (Serialize hashPair t).Leaves
        = (t.Leaves.take t.NumChunks).map encodeLeaf := rfl
    rw [hsLeaves, getD_map_encode _ i (by rw [List.length_take]; omega),
      getD_take hi]
    exact encodeLeaf_eq_nil_iff _

/-- Witness for C5 at a concrete sparse tree. -/
theorem deserialize_serialize_id_witness :
    Valid { TotalSize := 5, ChunkSize := 2, NumChunks := 3,
            Leaves := [7, 0, 3, 0], PresentCount := 2 } ∧
    Deserialize (Serialize (fun a b => a + b)
      { TotalSize := 5, ChunkSize := 2, NumChunks := 3,
        Leaves := [7, 0, 3, 0], PresentCount := 2 })
      = some { TotalSize := 5, ChunkSize := 2, NumChunks := 3,
               Leaves := [7, 0, 3, 0], PresentCount := 2 } :=
  ⟨by decide,
    (deserialize_serialize_id (fun a b => a + b) _ (by decide)).1⟩

end Merkle

namespace Store

/-!
### pkg/store/pull.go — `Puller.loadOrCreateTree` (claims C2, C10)

The filesystem is passed in explicitly.  `content` describes the state file
at the layer's state path:
* `none`            — `os.Stat` fails (no file);
* `some none`       — the file exists but `os.ReadFile`/`json.Unmarshal`
                      fails (unreadable or corrupt JSON);
* `some (some st)`  — the file exists and parses into the state record `st`
                      (`merkle.Deserialize` may still reject a bad hex leaf).
`mkdirOk` is the result of the initial `os.MkdirAll` of the state dir, the
only error path of the Go function.
-/

/-- Go: `func (p *Puller) loadOrCreateTree(digest string, size int64)`.
Note the Go code performs no comparison between the loaded state's
`(TotalSize, ChunkSize)` and the layer's `size` / configured chunk size. -/
def loadOrCreateTree (mkdirOk : Bool) (content : Option (Option Merkle.State))
    (size chunkSize : Nat) : Except Unit Merkle.Tree :=
  if ¬mkdirOk then .error ()
  else
    match content with
    | some (some st) =>
      match Merkle.Deserialize st with
      | some t => .ok t
      | none => .ok (Merkle.New size chunkSize)
    | some none => .ok (Merkle.New size chunkSize)
    | none => .ok (Merkle.New size chunkSize)

/-- C10: if the state file exists but cannot be read or parsed (corrupt
JSON, or a bad hex leaf rejected by `Deserialize`), `loadOrCreateTree`
surfaces no error and silently returns a fresh tree for the layer. -/
theorem corruptState_fresh_tree (content : Option (Option Merkle.State))
    (size chunkSize : Nat)
    (hcorrupt : content = some none ∨
      ∃ st, content = some (some st) ∧ Merkle.Deserialize st = none) :
    loadOrCreateTree true content size chunkSize
      = .ok (Merkle.New size chunkSize) := by
  rcases hcorrupt with hc | ⟨st, hc, hds⟩
  · subst hc; rfl
  · subst hc
    rw [loadOrCreateTree]
    simp only [hds]
    rfl

/-- Witness for C10: a state file whose leaf `"zz"` is not valid hex
(modelled as digit value 35 ≥ 16) is silently replaced by a fresh tree. -/
theorem corruptState_fresh_tree_witness :
    loadOrCreateTree true
      (some (some { TotalSize := 20, ChunkSize := 5, NumChunks := 4,
                    PresentCount := 1, Root := [], Leaves := [[35, 35]] }))
      20 5 = .ok (Merkle.New 20 5) :=
  corruptState_fresh_tree _ 20 5 (Or.inr ⟨_, rfl, by decide⟩)

/-- The persisted state of claim C2's failing input: a fully downloaded
layer of `total_size = 10`, `chunk_size = 5` (leaves hex `"1"` and `"2"`). -/
def staleSt : Merkle.State :=
  { TotalSize := 10, ChunkSize := 5, NumChunks := 2, PresentCount := 2,
    Root := [], Leaves := [[1], [2]] }

/-- The tree `Deserialize` rebuilds from `staleSt`. -/
def staleTree : Merkle.Tree :=
  { TotalSize := 10, ChunkSize := 5, NumChunks := 2,
    Leaves := [1, 2], PresentCount := 2 }

/-- C2 (code bug): for a layer of declared size 20 with configured chunk
size 5, a persisted state with `(total_size, chunk_size) = (10, 5)` is NOT
discarded: `loadOrCreateTree` returns the stale tree unchanged (its
`TotalSize` is 10, not 20; it is not the fresh tree), and that stale tree
already reports `Complete`, so `downloadLayerResumable` would finalize the
blob without downloading anything. -/
theorem staleState_used :
    loadOrCreateTree true (some (some staleSt)) 20 5 = .ok staleTree ∧
    staleTree.TotalSize ≠ 20 ∧ staleTree ≠ Merkle.New 20 5 ∧
    Merkle.Complete staleTree = true :=
  ⟨rfl, by decide, by decide, rfl⟩

/-!
### pkg/store/pull.go — `Puller.saveTree` (claim C4)

`saveTree` simply delegates to `merkle.Tree.SaveToFile`.
-/

/-- Go: `func (p *Puller) saveTree(tree *merkle.Tree, path string) error`. -/
def saveTreeOps (hashPair : Merkle.Hash → Merkle.Hash → Merkle.Hash)
    (t : Merkle.Tree) (path : List Char) : List Merkle.FsOp :=
  Merkle.SaveToFileOps hashPair t path

/-!
### pkg/store/layout.go — `Layout.GetStats` (claim C9)
-/

/-- One `os.DirEntry` of the `blobs/sha256` directory together with the
result of its `Info()` call. -/
structure DirEntry where
  name : List Char
  isDir : Bool
  infoOk : Bool
  size : Nat

/-- Go: `type Stats struct` in pkg/store/layout.go. -/
structure Stats where
  BlobCount : Nat
  TotalSize : Nat
  UniqueDigests : Nat
  deriving DecidableEq, Repr

/-- The `for _, entry := range entries` loop of `GetStats`, threading the
`seen` map (modelled as the list of names inserted so far). -/
def getStatsLoop : List DirEntry → List (List Char) → Stats → Stats
  | [], _, acc => acc
  | e :: rest, seen, acc =>
    if e.isDir ∨ (".partial".toList.isSuffixOf e.name) then
      getStatsLoop rest seen acc
    else if ¬e.infoOk then getStatsLoop rest seen acc
    else
      let acc1 := { acc with BlobCount := acc.BlobCount + 1,
                             TotalSize := acc.TotalSize + e.size }
      if e.name ∈ seen then getStatsLoop rest seen acc1
      else getStatsLoop rest (e.name :: seen)
        { acc1 with UniqueDigests := acc1.UniqueDigests + 1 }

/-- Go: `func (l *Layout) GetStats() (Stats, error)`, success path, over the
entries `os.ReadDir` returned for `blobs/sha256` (the not-exist error path
returns the zero stats, for which the claim holds trivially). -/
def GetStats (entries : List DirEntry) : Stats :=
  getStatsLoop entries [] { BlobCount := 0, TotalSize := 0, UniqueDigests := 0 }

theorem getStatsLoop_unique : ∀ (entries : List DirEntry)
    (seen : List (List Char)) (acc : Stats),
    (entries.map DirEntry.name).Nodup →
    (∀ n ∈ seen, n ∉ entries.map DirEntry.name) →
    acc.UniqueDigests = acc.BlobCount →
    (getStatsLoop entries seen acc).UniqueDigests
      = (getStatsLoop entries seen acc).BlobCount := by
  intro entries
  induction entries with
  | nil => intro seen acc _ _ h; exact h
  | cons e rest ih =>
    intro seen acc hnodup hdisj hacc
    have hnodup' : (rest.map DirEntry.name).Nodup := by
      simp only [List.map_cons, List.nodup_cons] at hnodup
      exact hnodup.2
    have hheadnotin : e.name ∉ rest.map DirEntry.name := by
      simp only [List.map_cons, List.nodup_cons] at hnodup
      exact hnodup.1
    have hdisj' : ∀ n ∈ seen, n ∉ rest.map DirEntry.name := by
      intro n hn hmem
      exact hdisj n hn (by simp [hmem])
    rw [getStatsLoop]
    by_cases hskip : e.isDir ∨ (".partial".toList.isSuffixOf e.name)
    · rw [if_pos hskip]
      exact ih seen acc hnodup' hdisj' hacc
    · rw [if_neg hskip]
      by_cases hinfo : e.infoOk
      · rw [if_neg (by simpa using hinfo)]
        have hnotseen : e.name ∉ seen := by
          intro hmem
          exact hdisj e.name hmem (by simp)
        rw [if_neg hnotseen]
        refine ih (e.name :: seen) _ hnodup' ?_ (by simpa using hacc)
        intro n hn
        rcases List.mem_cons.mp hn with hn | hn
        · subst hn; exact hheadnotin
        · exact hdisj' n hn
      · rw [if_pos (by simpa using hinfo)]
        exact ih seen acc hnodup' hdisj' hacc

/-- C9: whenever the names of the directory entries are pairwise distinct
(always true of a real directory listing), `GetStats` returns
`UniqueDigests = BlobCount`: the dedup map is keyed by file names inside
the single `blobs/sha256` directory, so it can never record fewer "unique
digests" than blobs. -/
theorem getStats_unique_eq_blobCount (entries : List DirEntry)
    (hnodup : (entries.map DirEntry.name).Nodup) :
    (GetStats entries).UniqueDigests = (GetStats entries).BlobCount :=
  getStatsLoop_unique entries [] _ hnodup (by simp) rfl

/-- Witness for C9 on a concrete two-entry directory. -/
theorem getStats_unique_eq_blobCount_witness :
    (GetStats [⟨['a'], false, true, 7⟩, ⟨['b'], false, true, 9⟩]).UniqueDigests
      = (GetStats [⟨['a'], false, true, 7⟩, ⟨['b'], false, true, 9⟩]).BlobCount :=
  getStats_unique_eq_blobCount _ (by decide)

end Store

namespace Oci

/-!
### ParseImageRef (claim C8)

Go strings are modelled as `List Char` (image references are ASCII, so Go's
byte indices coincide with character indices).
-/

/-- A Go string. -/
abbrev Str := List Char

/-- Go: `const DockerHubRegistry = "registry-1.docker.io"`. -/
def DockerHubRegistry : Str := "registry-1.docker.io".toList

/-- Go: `const DockerHubAlias = "docker.io"`. -/
def DockerHubAlias : Str := "docker.io".toList

/-- Go: `strings.LastIndex(s, string(c))` for a single-character needle
(`none` models Go's `-1`). -/
def lastIdx : Str → Char → Option Nat
  | [], _ => none
  | x :: xs, c =>
    match lastIdx xs c with
    | some i => some (i + 1)
    | none => if x = c then some 0 else none

/-- Go: `strings.Index(s, string(c))` for a single-character needle. -/
def firstIdx : Str → Char → Option Nat
  | [], _ => none
  | x :: xs, c => if x = c then some 0 else (firstIdx xs c).map (· + 1)

/-- Go: `strings.Contains(s, string(c))`. -/
def containsChar (s : Str) (c : Char) : Bool := decide (c ∈ s)

/-- Go: `strings.SplitN(s, "/", 2)`. -/
def splitN2Slash (s : Str) : List Str :=
  match firstIdx s '/' with
  | none => [s]
  | some i => [s.take i, s.drop (i + 1)]

/-- Go: `func ParseImageRef(image string) (registry, repo, ref string)`.
(The `[]` case of the final match is unreachable: `SplitN` always returns at
least one element.) -/
def ParseImageRef (image : Str) : Str × Str × Str :=
  let p :=
    match lastIdx image '@' with
    | some idx => (image.take idx, image.drop (idx + 1))
    | none =>
      match lastIdx image ':' with
      | some idx =>
        if ¬containsChar (image.drop idx) '/' then
          (image.take idx, image.drop (idx + 1))
        else (image, "latest".toList)
      | none => (image, "latest".toList)
  let image1 := p.1
  let ref := p.2
  match splitN2Slash image1 with
  | [single] => (DockerHubRegistry, "library/".toList ++ single, ref)
  | p0 :: p1 :: _ =>
    if containsChar p0 '.' ∨ containsChar p0 ':' then
      (if p0 = DockerHubAlias then DockerHubRegistry else p0, p1, ref)
    else (DockerHubRegistry, image1, ref)
  | [] => (DockerHubRegistry, "library/".toList, ref)

/-- The canonical formatter of the claim: `"registry/repo:tag"`. -/
def FormatImageRef (registry repo tag : Str) : Str :=
  registry ++ "/".toList ++ repo ++ ":".toList ++ tag

/-- C8 counterexample: on input `"a@b@c"` the parser produces the triple
`(registry-1.docker.io, library/a - at - b, c)`; formatting it as
`registry/repo:tag` and re-parsing splits at the `@` inside the repo and
returns a different triple. -/
theorem parse_format_counterexample :
    ParseImageRef "a@b@c".toList
      = (DockerHubRegistry, "library/a@b".toList, "c".toList) ∧
    ParseImageRef
        (FormatImageRef DockerHubRegistry "library/a@b".toList "c".toList)
      ≠ (DockerHubRegistry, "library/a@b".toList, "c".toList) := by decide

theorem lastIdx_eq_none {s : Str} {c : Char} (h : c ∉ s) : lastIdx s c = none := by
  induction s with
  | nil => rfl
  | cons x xs ih =>
    rw [lastIdx, ih (fun hm => h (List.mem_cons_of_mem _ hm))]
    rw [if_neg (fun he => h (List.mem_cons.mpr (Or.inl he.symm)))]

theorem lastIdx_append_cons (xs : Str) {ys : Str} {c : Char} (h : c ∉ ys) :
    lastIdx (xs ++ c :: ys) c = some xs.length := by
  induction xs with
  | nil =>
    simp [lastIdx, lastIdx_eq_none h]
  | cons x xs ih =>
    rw [List.cons_append, lastIdx, ih]
    rfl

theorem firstIdx_append_cons {xs : Str} {c : Char} (h : c ∉ xs) (ys : Str) :
    firstIdx (xs ++ c :: ys) c = some xs.length := by
  induction xs with
  | nil => simp [firstIdx]
  | cons x xs ih =>
    rw [List.cons_append, firstIdx,
      if_neg (fun he => h (List.mem_cons.mpr (Or.inl he.symm))),
      ih (fun hm => h (List.mem_cons_of_mem _ hm))]
    rfl

theorem drop_append_plus (xs ys : Str) (k : Nat) :
    (xs ++ ys).drop (xs.length + k) = ys.drop k := by
  induction xs with
  | nil => simp
  | cons x xs ih =>
    rw [List.cons_append, List.length_cons, Nat.succ_add, List.drop_succ_cons]
    exact ih

/-- C8 (amended): the parse-after-format round trip holds for every triple
whose registry part contains a `.` or `:` but no `/`, is not the bare alias
`docker.io`, whose components contain no `@`, and whose tag contains no `:`
and no `/`.  (The counterexample shows it fails outside these conditions,
e.g. for digest refs, whose tag contains `:`, or repos containing `@`.) -/
theorem parse_format_roundtrip (registry repo tag : Str)
    (hdot : '.' ∈ registry ∨ ':' ∈ registry)
    (hslash : '/' ∉ registry)
    (hat_r : '@' ∉ registry) (hat_p : '@' ∉ repo) (hat_t : '@' ∉ tag)
    (hcol_t : ':' ∉ tag) (hsl_t : '/' ∉ tag)
    (halias : registry ≠ DockerHubAlias) :
    ParseImageRef (FormatImageRef registry repo tag) = (registry, repo, tag) := by
  have hfmt : FormatImageRef registry repo tag
      = (registry ++ '/' :: repo) ++ ':' :: tag := by
    simp [FormatImageRef]
  have hat : '@' ∉ (registry ++ '/' :: repo) ++ ':' :: tag := by
    intro hm
    rcases List.mem_append.mp hm with hm | hm
    · rcases List.mem_append.mp hm with hm | hm
      · exact hat_r hm
      · rcases List.mem_cons.mp hm with hm | hm
        · exact absurd hm (by decide)
        · exact hat_p hm
    · rcases List.mem_cons.mp hm with hm | hm
      · exact absurd hm (by decide)
      · exact hat_t hm
  have h1 : lastIdx ((registry ++ '/' :: repo) ++ ':' :: tag) '@' = none :=
    lastIdx_eq_none hat
  have h2 : lastIdx ((registry ++ '/' :: repo) ++ ':' :: tag) ':'
      = some (registry ++ '/' :: repo).length :=
    lastIdx_append_cons _ hcol_t
  have h3 : ((registry ++ '/' :: repo) ++ ':' :: tag).drop
      (registry ++ '/' :: repo).length = ':' :: tag := List.drop_left _ _
  have h4 : containsChar (':' :: tag) '/' = false := by
    rw [containsChar]
    apply decide_eq_false
    intro hmem
    rcases List.mem_cons.mp hmem with hm | hm
    · exact absurd hm (by decide)
    · exact hsl_t hm
  have h5 : ((registry ++ '/' :: repo) ++ ':' :: tag).take
      (registry ++ '/' :: repo).length = registry ++ '/' :: repo :=
    List.take_left _ _
  have h6 : ((registry ++ '/' :: repo) ++ ':' :: tag).drop
      ((registry ++ '/' :: repo).length + 1) = tag := by
    simpa using drop_append_plus (registry ++ '/' :: repo) (':' :: tag) 1
  have h7 : firstIdx (registry ++ '/' :: repo) '/' = some registry.length :=
    firstIdx_append_cons hslash _
  have h8 : (registry ++ '/' :: repo).take registry.length = registry :=
    List.take_left _ _
  have h9 : (registry ++ '/' :: repo).drop (registry.length + 1) = repo := by
    have := drop_append_plus registry ('/' :: repo) 1
    rw [List.drop_succ_cons, List.drop_zero] at this
    exact this
  have hcond : containsChar registry '.' = true ∨ containsChar registry ':' = true := by
    rcases hdot with hd | hd
    · exact Or.inl (by rw [containsChar]; exact decide_eq_true hd)
    · exact Or.inr (by rw [containsChar]; exact decide_eq_true hd)
  rw [hfmt, ParseImageRef]
  simp only [h1, h2, h3, h4, h5, h6, splitN2Slash, h7, h8, h9,
    Bool.not_false, if_true, Bool.false_eq_true, not_false_eq_true]
  rw [if_pos hcond, if_neg halias]

/-- Witness for C8's amended round trip on a canonical docker-hub triple. -/
theorem parse_format_roundtrip_witness :
    ParseImageRef
        (FormatImageRef DockerHubRegistry "library/alpine".toList "latest".toList)
      = (DockerHubRegistry, "library/alpine".toList, "latest".toList) :=
  parse_format_roundtrip _ _ _ (by decide) (by decide) (by decide) (by decide)
    (by decide) (by decide) (by decide) (by decide)

end Oci

namespace Oci

/-!
### RegistryAuth.loadCredentials (claim C7)

The environment, home directory, filesystem and base64 decoder are explicit
arguments:
* `env k`   — `os.Getenv(k)` (`[]` = unset/empty);
* `home`    — `os.UserHomeDir()` result (`none` = error);
* `fs p`    — the auth file at `p`: `none` when `os.ReadFile` or
              `json.Unmarshal` fails, otherwise the parsed `auths` map as an
              association list `key ↦ base64 auth string`;
* `b64 s`   — `base64.StdEncoding.DecodeString(s)`.
`filepath.Join` is modelled as concatenation with `/` (no path cleaning is
relevant to the claim).
-/

/-- The parsed `{"auths": {...}}` content of one credential file. -/
abbrev AuthCfg := List (Str × Str)

/-- Go map lookup `config.Auths[key]` combined with the `auth.Auth != ""`
guard that every use site applies. -/
def lookupAuth (cfg : AuthCfg) (key : Str) : Option Str :=
  match cfg.find? (fun p => p.1 == key) with
  | some p => if p.2 ≠ [] then some p.2 else none
  | none => none

/-- Go: `func decodeAuth(encoded string) (string, string, error)`. -/
def decodeAuth (b64 : Str → Option Str) (encoded : Str) : Option (Str × Str) :=
  match b64 encoded with
  | none => none
  | some decoded =>
    match firstIdx decoded ':' with
    | none => none
    | some i => some (decoded.take i, decoded.drop (i + 1))

/-- Lift `decodeAuth`'s result to `loadFromFile`'s return convention. -/
def toCreds : Option (Str × Str) → Except Unit (Str × Str)
  | none => .error ()
  | some p => .ok p

/-- Go: `func (r *RegistryAuth) loadFromFile(path, registry string)`. -/
def loadFromFile (fs : Str → Option AuthCfg) (b64 : Str → Option Str)
    (path registry : Str) : Except Unit (Str × Str) :=
  match fs path with
  | none => .error ()
  | some cfg =>
    match lookupAuth cfg registry with
    | some a => toCreds (decodeAuth b64 a)
    | none =>
      match lookupAuth cfg ("https://".toList ++ registry) with
      | some a => toCreds (decodeAuth b64 a)
      | none =>
        if registry = DockerHubRegistry then
          match lookupAuth cfg DockerHubAlias with
          | some a => toCreds (decodeAuth b64 a)
          | none =>
            match lookupAuth cfg "https://index.docker.io/v1/".toList with
            | some a => toCreds (decodeAuth b64 a)
            | none =>
              match lookupAuth cfg "index.docker.io".toList with
              | some a => toCreds (decodeAuth b64 a)
              | none => .ok ([], [])
        else .ok ([], [])

/-- The `for _, path := range configPaths` loop of `loadCredentials`. -/
def credsLoop (fs : Str → Option AuthCfg) (b64 : Str → Option Str)
    (registry : Str) : List Str → Str × Str
  | [] => ([], [])
  | path :: rest =>
    match loadFromFile fs b64 path registry with
    | .ok (u, p) => if u ≠ [] then (u, p) else credsLoop fs b64 registry rest
    | .error _ => credsLoop fs b64 registry rest

/-- Go: `func (r *RegistryAuth) loadCredentials(registry string)`.  Note the
search list: `$XDG_RUNTIME_DIR/containers/auth.json`, the two home paths,
`/etc/containers/auth.json` — the environment is consulted only for
`XDG_RUNTIME_DIR`; `REGISTRY_AUTH_FILE` is never read. -/
def loadCredentials (env : Str → Str) (home : Option Str)
    (fs : Str → Option AuthCfg) (b64 : Str → Option Str)
    (registry : Str) : Str × Str :=
  let paths1 :=
    if env "XDG_RUNTIME_DIR".toList ≠ [] then
      [env "XDG_RUNTIME_DIR".toList ++ "/containers/auth.json".toList]
    else []
  let paths2 :=
    match home with
    | some h => [h ++ "/.docker/config.json".toList,
                 h ++ "/.config/containers/auth.json".toList]
    | none => []
  credsLoop fs b64 registry (paths1 ++ paths2 ++ ["/etc/containers/auth.json".toList])

/-- `loadCredentials` is invariant under any change to `REGISTRY_AUTH_FILE`:
the code never reads that variable. -/
theorem loadCredentials_ignores_authfile_env (env : Str → Str)
    (home : Option Str) (fs : Str → Option AuthCfg) (b64 : Str → Option Str)
    (registry v : Str) :
    loadCredentials
        (fun k => if k = "REGISTRY_AUTH_FILE".toList then v else env k)
        home fs b64 registry
      = loadCredentials env home fs b64 registry := by
  rw [loadCredentials.eq_def, loadCredentials.eq_def]
  simp only [if_neg (show ¬("XDG_RUNTIME_DIR".toList : Str)
    = "REGISTRY_AUTH_FILE".toList by decide)]

/-- The failing environment of claim C7: `REGISTRY_AUTH_FILE` names
`/x/auth.json`, no other source exists. -/
def authEnv : Str → Str := fun k =>
  if k = "REGISTRY_AUTH_FILE".toList then "/x/auth.json".toList else []

/-- `/x/auth.json` holds credentials for `example.com`
(`dXNlcjpwYXNz` = base64 of `user:pass`); no other file exists. -/
def authFs : Str → Option AuthCfg := fun p =>
  if p = "/x/auth.json".toList then
    some [("example.com".toList, "dXNlcjpwYXNz".toList)]
  else none

/-- The base64 decoding the standard library would perform here. -/
def authB64 : Str → Option Str := fun s =>
  if s = "dXNlcjpwYXNz".toList then some "user:pass".toList else none

/-- C7 (code bug): with `REGISTRY_AUTH_FILE=/x/auth.json` set and that file
holding valid credentials for `example.com`, credential lookup returns no
credentials — the file named by the environment variable is never read —
even though reading it (as the repository README documents) would yield
`(user, pass)`. -/
theorem registryAuthFile_ignored :
    loadCredentials authEnv none authFs authB64 "example.com".toList
      = ([], []) ∧
    loadFromFile authFs authB64 "/x/auth.json".toList "example.com".toList
      = .ok ("user".toList, "pass".toList) :=
  ⟨rfl, rfl⟩

end Oci

namespace Oci

/-!
### Manifests and JSON (claim C1)

`Client.GetManifest` returns `json.Unmarshal` of the response body into a
`Manifest` struct; `Puller.Pull` then re-serializes it with `json.Marshal`
and hashes/stores those re-serialized bytes.  We model the relevant
fragment of `encoding/json`: a whitespace-tolerant JSON reader (string
escapes and floating point are not needed by the inputs considered and are
omitted), Go's struct field extraction (unknown fields ignored, duplicate
keys last-wins, `null`/missing keep the zero value, type mismatch errors),
and Go's deterministic marshaller (declared field order, no whitespace).
-/

/-- The open/close braces as characters (`{` and `}`). -/
def lbrace : Char := Char.ofNat 123

def rbrace : Char := Char.ofNat 125

/-- A JSON value (numbers restricted to integers, as used by manifests). -/
inductive Json where
  | null
  | bool (b : Bool)
  | num (n : Int)
  | str (s : Str)
  | arr (xs : List Json)
  | obj (fs : List (Str × Json))

/-- Skip JSON whitespace. -/
def skipWs : Str → Str
  | c :: rest =>
    if c = ' ' ∨ c = '\t' ∨ c = '\n' ∨ c = '\r' then skipWs rest else c :: rest
  | [] => []

/-- Read a string body after the opening quote, up to the closing quote. -/
def parseStrBody : Str → Option (Str × Str)
  | [] => none
  | c :: rest =>
    if c = '"' then some ([], rest)
    else (parseStrBody rest).map (fun p => (c :: p.1, p.2))

def digitVal (c : Char) : Option Nat :=
  if '0' ≤ c ∧ c ≤ '9' then some (c.toNat - '0'.toNat) else none

def parseDigitsGo : Str → Nat → Nat × Str
  | c :: rest, acc =>
    match digitVal c with
    | some d => parseDigitsGo rest (acc * 10 + d)
    | none => (acc, c :: rest)
  | [], acc => (acc, [])

/-- Read an integer (optional minus sign, one or more digits). -/
def parseInt : Str → Option (Int × Str)
  | '-' :: c :: rest =>
    match digitVal c with
    | some d =>
      let p := parseDigitsGo rest d
      some (-(p.1 : Int), p.2)
    | none => none
  | c :: rest =>
    match digitVal c with
    | some d =>
      let p := parseDigitsGo rest d
      some ((p.1 : Int), p.2)
    | none => none
  | [] => none

/-- Strip an expected literal. -/
def stripLit : Str → Str → Option Str
  | [], s => some s
  | c :: cs, x :: xs => if c = x then stripLit cs xs else none
  | _ :: _, [] => none

mutual

def parseVal : Nat → Str → Option (Json × Str)
  | 0, _ => none
  | fuel + 1, s =>
    match skipWs s with
    | [] => none
    | c :: rest =>
      if c = '"' then (parseStrBody rest).map (fun p => (Json.str p.1, p.2))
      else if c = lbrace then
        match skipWs rest with
        | c2 :: rest2 =>
          if c2 = rbrace then some (Json.obj [], rest2)
          else (parseObjFields fuel (c2 :: rest2)).map
            (fun p => (Json.obj p.1, p.2))
        | [] => none
      else if c = '[' then
        match skipWs rest with
        | c2 :: rest2 =>
          if c2 = ']' then some (Json.arr [], rest2)
          else (parseArrItems fuel (c2 :: rest2)).map
            (fun p => (Json.arr p.1, p.2))
        | [] => none
      else if c = 't' then
        (stripLit "rue".toList rest).map (fun r => (Json.bool true, r))
      else if c = 'f' then
        (stripLit "alse".toList rest).map (fun r => (Json.bool false, r))
      else if c = 'n' then
        (stripLit "ull".toList rest).map (fun r => (Json.null, r))
      else (parseInt (c :: rest)).map (fun p => (Json.num p.1, p.2))

def parseArrItems : Nat → Str → Option (List Json × Str)
  | 0, _ => none
  | fuel + 1, s =>
    match parseVal fuel s with
    | none => none
    | some (v, r1) =>
      match skipWs r1 with
      | c :: rest =>
        if c = ',' then
          (parseArrItems fuel rest).map (fun p => (v :: p.1, p.2))
        else if c = ']' then some ([v], rest)
        else none
      | [] => none

def parseObjFields : Nat → Str → Option (List (Str × Json) × Str)
  | 0, _ => none
  | fuel + 1, s =>
    match skipWs s with
    | c :: rest =>
      if c = '"' then
        match parseStrBody rest with
        | none => none
        | some (key, r1) =>
          match skipWs r1 with
          | c2 :: r2 =>
            if c2 = ':' then
              match parseVal fuel r2 with
              | none => none
              | some (v, r3) =>
                match skipWs r3 with
                | c3 :: r4 =>
                  if c3 = ',' then
                    (parseObjFields fuel r4).map
                      (fun p => ((key, v) :: p.1, p.2))
                  else if c3 = rbrace then some ([(key, v)], r4)
                  else none
                | [] => none
            else none
          | [] => none
      else none
    | [] => none

end

/-- `json.Unmarshal`'s reader: parse one value, then require only trailing
whitespace. -/
def parseJson (s : Str) : Option Json :=
  match parseVal (s.length + 1) s with
  | some (v, rest) => if skipWs rest = [] then some v else none
  | none => none

/-- Go: `type Blob struct` in the oci package. -/
structure Blob where
  MediaType : Str
  Digest : Str
  Size : Int
  deriving DecidableEq, Repr

/-- Go: `type Manifest struct` in the oci package. -/
structure Manifest where
  SchemaVersion : Int
  MediaType : Str
  Config : Blob
  Layers : List Blob
  deriving DecidableEq, Repr

/-- Go object-field lookup: duplicate keys resolve to the last one. -/
def lookupLast (fs : List (Str × Json)) (k : Str) : Option Json :=
  fs.foldl (fun acc p => if p.1 == k then some p.2 else acc) none

/-- Unmarshal a JSON value into a string field. -/
def fieldStr (fs : List (Str × Json)) (k : Str) : Option Str :=
  match lookupLast fs k with
  | none => some []
  | some Json.null => some []
  | some (Json.str s) => some s
  | some _ => none

/-- Unmarshal a JSON value into an integer field. -/
def fieldInt (fs : List (Str × Json)) (k : Str) : Option Int :=
  match lookupLast fs k with
  | none => some 0
  | some Json.null => some 0
  | some (Json.num n) => some n
  | some _ => none

/-- Unmarshal a JSON value into a `Blob`. -/
def blobOfJson : Json → Option Blob
  | Json.obj o => do
    let mt ← fieldStr o "mediaType".toList
    let dg ← fieldStr o "digest".toList
    let sz ← fieldInt o "size".toList
    some ⟨mt, dg, sz⟩
  | Json.null => some ⟨[], [], 0⟩
  | _ => none

/-- Go: `json.Unmarshal(body, &manifest)` for the `Manifest` struct. -/
def unmarshalManifest (body : Str) : Option Manifest :=
  match parseJson body with
  | none => none
  | some (Json.obj o) => do
    let sv ← fieldInt o "schemaVersion".toList
    let mt ← fieldStr o "mediaType".toList
    let cfg ←
      match lookupLast o "config".toList with
      | none => some ⟨[], [], 0⟩
      | some j => blobOfJson j
    let ls ←
      match lookupLast o "layers".toList with
      | none => some []
      | some Json.null => some []
      | some (Json.arr xs) => xs.mapM blobOfJson
      | some _ => none
    some ⟨sv, mt, cfg, ls⟩
  | some Json.null => some ⟨0, [], ⟨[], [], 0⟩, []⟩
  | some _ => none

/-- Render a JSON string (the inputs considered need no escaping). -/
def quoteStr (s : Str) : Str := '"' :: s ++ ['"']

/-- Render an integer the way `json.Marshal` does. -/
def intToStr (n : Int) : Str :=
  if n < 0 then '-' :: Nat.toDigits 10 n.natAbs else Nat.toDigits 10 n.toNat

/-- Go: `json.Marshal` of a `Blob` (declared field order, no whitespace). -/
def marshalBlob (b : Blob) : Str :=
  lbrace :: ("\"mediaType\":".toList ++ quoteStr b.MediaType
    ++ ",\"digest\":".toList ++ quoteStr b.Digest
    ++ ",\"size\":".toList ++ intToStr b.Size) ++ [rbrace]

def commaJoin : List Str → Str
  | [] => []
  | [x] => x
  | x :: rest => x ++ ',' :: commaJoin rest

/-- Go: `json.Marshal` of a `[]Blob`. -/
def marshalBlobList (xs : List Blob) : Str :=
  '[' :: commaJoin (xs.map marshalBlob) ++ [']']

/-- Go: `json.Marshal(manifest)` — the `manifestData` of `Puller.Pull`. -/
def marshalManifest (m : Manifest) : Str :=
  lbrace :: ("\"schemaVersion\":".toList ++ intToStr m.SchemaVersion
    ++ ",\"mediaType\":".toList ++ quoteStr m.MediaType
    ++ ",\"config\":".toList ++ marshalBlob m.Config
    ++ ",\"layers\":".toList ++ marshalBlobList m.Layers) ++ [rbrace]

end Oci

namespace Store

/-- The observable outputs of the manifest phase of `Puller.Pull`
(pull.go lines 74–91 and 122–131): the digest recorded in `PullResult`, the
bytes written via `WriteBlob` under that digest, and the digest and size of
the descriptor added to the index. -/
structure PullManifestOut where
  resultDigest : Oci.Str
  storedBytes : Oci.Str
  descDigest : Oci.Str
  descSize : Int
  deriving DecidableEq, Repr

/-- The manifest phase of `Puller.Pull`, given the manifest body as received
from the registry (for a manifest list, the body of the second fetch) and
the sha256 hex function as a parameter: the manifest is the parsed body,
`manifestData := json.Marshal(manifest)`, the digest is
`"sha256:" + hex(sha256(manifestData))`, the blob is written under that
digest with content `manifestData`, and the descriptor uses the same digest
and `len(manifestData)`. -/
def pullManifestPhase (sha : Oci.Str → Oci.Str) (body : Oci.Str) :
    Option PullManifestOut :=
  match Oci.unmarshalManifest body with
  | none => none
  | some manifest =>
    let manifestData := Oci.marshalManifest manifest
    let manifestDigest := "sha256:".toList ++ sha manifestData
    some { resultDigest := manifestDigest
           storedBytes := manifestData
           descDigest := manifestDigest
           descSize := (manifestData.length : Int) }

/-- The concrete received manifest body of C1's counterexample: identical to
Go's serialization except for one extra space after `"schemaVersion":`. -/
def exBody : Oci.Str :=
  "\x7b\"schemaVersion\": 2,\"mediaType\":\"m\",\"config\":\x7b\"mediaType\":\"c\",\"digest\":\"d\",\"size\":7\x7d,\"layers\":[]\x7d".toList

/-- The manifest `exBody` parses into. -/
def exManifest : Oci.Manifest :=
  { SchemaVersion := 2, MediaType := "m".toList,
    Config := { MediaType := "c".toList, Digest := "d".toList, Size := 7 },
    Layers := [] }

/-- C1 counterexample: `exBody` (as received, with one whitespace byte) is a
valid manifest response, yet the bytes `Puller.Pull` hashes and stores are
its re-serialization, which differs from the received bytes — so the
recorded digest is not the sha256 of the canonical received bytes, and the
stored blob does not contain them. -/
theorem pullManifest_counterexample :
    Oci.unmarshalManifest exBody = some exManifest ∧
    (pullManifestPhase (fun b => b) exBody).map PullManifestOut.storedBytes
      = some (Oci.marshalManifest exManifest) ∧
    Oci.marshalManifest exManifest ≠ exBody := by
  refine ⟨by decide, by decide, by decide⟩

/-- C1 (amended): for every received body that unmarshals into a manifest
`m`, the digest recorded in `PullResult` and in the index descriptor is
`"sha256:" + hex(sha256(json.Marshal(m)))` — sha256 over the re-serialized
manifest bytes, not over the bytes as received — the blob stored under that
digest contains exactly those re-serialized bytes, and the descriptor size
is their length.  Digest, blob and descriptor are mutually consistent. -/
theorem pullManifest_digest_consistent (sha : Oci.Str → Oci.Str)
    (body : Oci.Str) (m : Oci.Manifest)
    (hparse : Oci.unmarshalManifest body = some m) :
    pullManifestPhase sha body
      = some { resultDigest :=
                 "sha256:".toList ++ sha (Oci.marshalManifest m)
               storedBytes := Oci.marshalManifest m
               descDigest :=
                 "sha256:".toList ++ sha (Oci.marshalManifest m)
               descSize := ((Oci.marshalManifest m).length : Int) } := by
  rw [pullManifestPhase, hparse]

/-- Witness for C1's amended theorem at the concrete body. -/
theorem pullManifest_digest_consistent_witness :
    pullManifestPhase (fun b => b) exBody
      = some { resultDigest :=
                 "sha256:".toList ++ Oci.marshalManifest exManifest
               storedBytes := Oci.marshalManifest exManifest
               descDigest :=
                 "sha256:".toList ++ Oci.marshalManifest exManifest
               descSize := ((Oci.marshalManifest exManifest).length : Int) } :=
  pullManifest_digest_consistent (fun b => b) exBody exManifest (by decide)

end Store

namespace Proxy

/-!
### Server.pullImage single-flight (claim C6)

A small-step interleaving model of two concurrent proxy manifest requests
for the same not-yet-cached image, faithful to `Server.pullImage`
(part_009 / pkg/proxy):

```
s.mu.Lock()
if state, ok := s.pulling[image]; ok { s.mu.Unlock(); <-state.done; return state.err }
state := &pullState{done: make(chan struct{})}
s.pulling[image] = state
s.mu.Unlock()
err := puller.Pull(ctx, image)          // one Puller constructed and invoked
state.err = err; close(state.done)
go func() { s.mu.Lock(); delete(s.pulling, image); s.mu.Unlock() }()
return err
```

Atomic steps: the mutex-guarded map check/insert (`ready`), the pull
together with publishing its result (`running` — waiters only observe the
entry after `done` closes, so merging `Pull`, `state.err = err` and
`close(done)` into one step loses no observable behaviour), the waiter's
read after `done` (`awaitDone`), and the asynchronous `delete` goroutine
(`Label.d1/d2`), which can be delayed arbitrarily.  Pull outcomes are
supplied by the oracle `r1, r2 : Nat` — the result of the first and second
`Puller.Pull` invocation process-wide.  Ghost fields (`joined`, `pulled`)
record history and do not influence the computation.
-/

/-- One `pullState` entry: `done` (channel closed) and `err` (the result). -/
structure Entry where
  done : Bool
  res : Nat
  deriving DecidableEq, Repr

/-- A thread's program counter in `pullImage`.  `awaitDone w` waits on the
entry created by thread 1 (`w = true`) or thread 2 (`w = false`). -/
inductive TPc where
  | ready
  | awaitDone (w : Bool)
  | running
  | finished (res : Nat)
  deriving DecidableEq, Repr

/-- The shared state: the `s.pulling[image]` slot (`some true` = thread 1's
entry, `some false` = thread 2's), each thread's entry allocation, the pull
counter, both program counters, pending deletion goroutines, and ghost
history. -/
structure Config where
  pulling : Option Bool
  ent1 : Option Entry
  ent2 : Option Entry
  pullCount : Nat
  pc1 : TPc
  pc2 : TPc
  delPending1 : Bool
  delPending2 : Bool
  joined1 : Option Bool
  joined2 : Option Bool
  pulled1 : Bool
  pulled2 : Bool
  deriving DecidableEq, Repr

/-- A scheduler label: a step of thread 1 or 2, or of their deletion
goroutines. -/
inductive Label where
  | t1
  | t2
  | d1
  | d2
  deriving DecidableEq, Repr

/-- The entry the waiter token `w` refers to. -/
def entryOf (c : Config) (w : Bool) : Option Entry :=
  if w then c.ent1 else c.ent2

/-- One step of thread 1. -/
def step1 (r1 r2 : Nat) (c : Config) : Config :=
  match c.pc1 with
  | .ready =>
    match c.pulling with
    | some w => { c with pc1 := .awaitDone w, joined1 := some w }
    | none =>
      { c with ent1 := some ⟨false, 0⟩, pulling := some true, pc1 := .running }
  | .running =>
    let res := if c.pullCount = 0 then r1 else r2
    { c with pullCount := c.pullCount + 1, pulled1 := true,
             ent1 := some ⟨true, res⟩, delPending1 := true,
             pc1 := .finished res }
  | .awaitDone w =>
    match entryOf c w with
    | some ⟨true, res⟩ => { c with pc1 := .finished res }
    | _ => c
  | .finished _ => c

/-- One step of thread 2. -/
def step2 (r1 r2 : Nat) (c : Config) : Config :=
  match c.pc2 with
  | .ready =>
    match c.pulling with
    | some w => { c with pc2 := .awaitDone w, joined2 := some w }
    | none =>
      { c with ent2 := some ⟨false, 0⟩, pulling := some false, pc2 := .running }
  | .running =>
    let res := if c.pullCount = 0 then r1 else r2
    { c with pullCount := c.pullCount + 1, pulled2 := true,
             ent2 := some ⟨true, res⟩, delPending2 := true,
             pc2 := .finished res }
  | .awaitDone w =>
    match entryOf c w with
    | some ⟨true, res⟩ => { c with pc2 := .finished res }
    | _ => c
  | .finished _ => c

/-- The deletion goroutines: `delete(s.pulling, image)` removes whatever the
key currently maps to. -/
def stepDel1 (c : Config) : Config :=
  if c.delPending1 then { c with pulling := none, delPending1 := false } else c

def stepDel2 (c : Config) : Config :=
  if c.delPending2 then { c with pulling := none, delPending2 := false } else c

def step (r1 r2 : Nat) (c : Config) : Label → Config
  | .t1 => step1 r1 r2 c
  | .t2 => step2 r1 r2 c
  | .d1 => stepDel1 c
  | .d2 => stepDel2 c

/-- Run a schedule. -/
def run (r1 r2 : Nat) (c : Config) (sched : List Label) : Config :=
  sched.foldl (step r1 r2) c

/-- Both requests start with the image absent from cache and map. -/
def init : Config :=
  { pulling := none, ent1 := none, ent2 := none, pullCount := 0,
    pc1 := .ready, pc2 := .ready, delPending1 := false, delPending2 := false,
    joined1 := none, joined2 := none, pulled1 := false, pulled2 := false }

/-- C6 counterexample: under the schedule where request 1 enters, pulls and
publishes, its deletion goroutine runs, and only then request 2 enters,
TWO Pullers are invoked for the same image and the two concurrent requests
finish with different results (`r1 = 0` vs `r2 = 1`). -/
theorem singleflight_counterexample :
    (run 0 1 init [.t1, .t1, .d1, .t2, .t2]).pullCount = 2 ∧
    (run 0 1 init [.t1, .t1, .d1, .t2, .t2]).pc1 = .finished 0 ∧
    (run 0 1 init [.t1, .t1, .d1, .t2, .t2]).pc2 = .finished 1 := by decide

end Proxy

namespace Proxy

/-- The inductive invariant of the single-flight protocol.  Ghost fields
relate program counters, entries, the map and the pull counter. -/
structure Inv (r1 r2 : Nat) (c : Config) : Prop where
  ready1 : c.pc1 = .ready → c.ent1 = none ∧ c.joined1 = none
  ready2 : c.pc2 = .ready → c.ent2 = none ∧ c.joined2 = none
  run1 : c.pc1 = .running →
    c.ent1 = some ⟨false, 0⟩ ∧ c.pulled1 = false ∧ c.joined1 = none
  run2 : c.pc2 = .running →
    c.ent2 = some ⟨false, 0⟩ ∧ c.pulled2 = false ∧ c.joined2 = none
  await1 : ∀ w, c.pc1 = .awaitDone w → c.joined1 = some w
  await2 : ∀ w, c.pc2 = .awaitDone w → c.joined2 = some w
  pulledEnt1 : c.pulled1 = true → c.ent1.isSome
  pulledEnt2 : c.pulled2 = true → c.ent2.isSome
  entJoin1 : c.ent1.isSome → c.joined1 = none
  entJoin2 : c.ent2.isSome → c.joined2 = none
  joinSide1 : c.joined1 = some true → False
  joinSide2 : c.joined2 = some false → False
  joinEnt1 : c.joined1.isSome → c.ent2.isSome
  joinEnt2 : c.joined2.isSome → c.ent1.isSome
  mapEnt1 : c.pulling = some true → c.ent1.isSome
  mapEnt2 : c.pulling = some false → c.ent2.isSome
  count : c.pullCount
    = (if c.pulled1 then 1 else 0) + (if c.pulled2 then 1 else 0)
  first1 : c.pulled2 = false → ∀ e, c.ent1 = some e → e.done = true → e.res = r1
  first2 : c.pulled1 = false → ∀ e, c.ent2 = some e → e.done = true → e.res = r1
  fin1 : ∀ res, c.pc1 = .finished res →
    (c.joined1 = none ∧ ∃ e, c.ent1 = some e ∧ e.done = true ∧ e.res = res) ∨
    (c.joined1 = some false ∧ ∃ e, c.ent2 = some e ∧ e.done = true ∧ e.res = res)
  fin2 : ∀ res, c.pc2 = .finished res →
    (c.joined2 = none ∧ ∃ e, c.ent2 = some e ∧ e.done = true ∧ e.res = res) ∨
    (c.joined2 = some true ∧ ∃ e, c.ent1 = some e ∧ e.done = true ∧ e.res = res)

theorem inv_init (r1 r2 : Nat) : Inv r1 r2 init := by
  constructor <;> simp [init]

theorem inv_step (r1 r2 : Nat) (c : Config) (l : Label) (h : Inv r1 r2 c) :
    Inv r1 r2 (step r1 r2 c l) := by
  obtain ⟨rd1, rd2, rn1, rn2, aw1, aw2, pe1, pe2, ej1, ej2, js1, js2, je1,
    je2, me1, me2, cnt, f1, f2, fn1, fn2⟩ := h
  cases l with
  | d1 =>
    rw [step, stepDel1]
    by_cases hd : c.delPending1
    · rw [if_pos hd]
      exact ⟨rd1, rd2, rn1, rn2, aw1, aw2, pe1, pe2, ej1, ej2, js1, js2,
        je1, je2, (fun hp => nomatch hp), (fun hp => nomatch hp),
        cnt, f1, f2, fn1, fn2⟩
    · rw [if_neg hd]
      exact ⟨rd1, rd2, rn1, rn2, aw1, aw2, pe1, pe2, ej1, ej2, js1, js2,
        je1, je2, me1, me2, cnt, f1, f2, fn1, fn2⟩
  | d2 =>
    rw [step, stepDel2]
    by_cases hd : c.delPending2
    · rw [if_pos hd]
      exact ⟨rd1, rd2, rn1, rn2, aw1, aw2, pe1, pe2, ej1, ej2, js1, js2,
        je1, je2, (fun hp => nomatch hp), (fun hp => nomatch hp),
        cnt, f1, f2, fn1, fn2⟩
    · rw [if_neg hd]
      exact ⟨rd1, rd2, rn1, rn2, aw1, aw2, pe1, pe2, ej1, ej2, js1, js2,
        je1, je2, me1, me2, cnt, f1, f2, fn1, fn2⟩
  | t1 =>
    rw [step]
    cases hpc : c.pc1 with
    | ready =>
      obtain ⟨hent, hjoin⟩ := rd1 hpc
      cases hpull : c.pulling with
      | some w =>
        rw [step1, hpc, hpull]
        cases w with
        | true =>
          exact absurd (me1 hpull) (by rw [hent]; simp)
        | false =>
          have hent2 : c.ent2.isSome := me2 hpull
          refine ⟨(fun hx => nomatch hx), rd2, (fun hx => nomatch hx), rn2,
            ?_, aw2, pe1, pe2,
            (fun hs => absurd hs (by rw [hent]; simp)), ej2,
            ?_, js2,
            (fun _ => hent2), je2, (fun hp => nomatch hp), (fun _ => hent2),
            cnt, f1, f2,
            (fun res hx => nomatch hx), fn2⟩
          · intro w' hx
            injection hx with hx'
            rw [hx']
          · intro hc
            injection hc with hc'
            exact Bool.noConfusion hc'
      | none =>
        rw [step1, hpc, hpull]
        have hp1 : c.pulled1 = false := by
          by_cases hp : c.pulled1 = true
          · exact absurd (pe1 hp) (by rw [hent]; simp)
          · simpa using hp
        refine ⟨(fun hx => nomatch hx), rd2,
          (fun _ => ⟨rfl, hp1, hjoin⟩), rn2,
          (fun w hx => nomatch hx), aw2,
          (fun _ => rfl), pe2,
          (fun _ => hjoin), ej2,
          js1, js2,
          (fun hs => je1 hs), (fun _ => rfl),
          (fun _ => rfl), (fun hp => nomatch hp),
          cnt, ?_, f2,
          (fun res hx => nomatch hx), ?_⟩
        · intro hp2 e he hd
          injection he with he'
          rw [← he'] at hd
          simp at hd
        · intro res hx
          rcases fn2 res hx with ⟨hj, e, he, hd, hr⟩ | ⟨hj, e, he, hd, hr⟩
          · exact Or.inl ⟨hj, e, he, hd, hr⟩
          · rw [hent] at he
            exact absurd he (by simp)
    | running =>
      obtain ⟨hent, hp1, hjoin⟩ := rn1 hpc
      rw [step1, hpc]
      refine ⟨(fun hx => nomatch hx), rd2, (fun hx => nomatch hx), rn2,
        (fun w hx => nomatch hx), aw2,
        (fun _ => rfl), pe2,
        (fun _ => hjoin), ej2,
        (fun hc => absurd hc (by rw [hjoin]; simp)), js2,
        (fun hs => je1 hs), (fun _ => rfl),
        (fun _ => rfl), me2,
        ?_, ?_, (fun hpf => nomatch hpf), ?_, ?_⟩
      · show c.pullCount + 1 = _
        rw [cnt, hp1]
        by_cases h2 : c.pulled2 = true <;> simp [h2]
      · intro hpf e he hd
        injection he with he'
        rw [← he'] at hd ⊢
        show (if c.pullCount = 0 then r1 else r2) = r1
        have h0 : c.pullCount = 0 := by
          have hpf' : c.pulled2 = false := hpf
          rw [cnt, hp1, hpf']
          decide
        rw [if_pos h0]
      · intro res' hx
        injection hx with hx'
        exact Or.inl ⟨hjoin, ⟨true, if c.pullCount = 0 then r1 else r2⟩,
          rfl, rfl, hx'⟩
      · intro res' hx
        rcases fn2 res' hx with ⟨hj, e, he, hd, hr⟩ | ⟨hj, e, he, hd, hr⟩
        · exact Or.inl ⟨hj, e, he, hd, hr⟩
        · rw [hent] at he
          injection he with he'
          rw [← he'] at hd
          simp at hd
    | awaitDone w =>
      have hjoin := aw1 w hpc
      have hw : w = false := by
        cases w
        · rfl
        · exact absurd hjoin (fun hc => js1 hc)
      subst hw
      have hstep1 : step1 r1 r2 c =
          (match entryOf c false with
           | some ⟨true, res⟩ => { c with pc1 := TPc.finished res }
           | _ => c) := by
        rw [step1, hpc]
      rw [hstep1]
      cases hent : entryOf c false with
      | none =>
        exact ⟨rd1, rd2, rn1, rn2, aw1, aw2, pe1, pe2, ej1, ej2, js1, js2,
          je1, je2, me1, me2, cnt, f1, f2, fn1, fn2⟩
      | some e =>
        obtain ⟨d, res⟩ := e
        cases d with
        | false =>
          exact ⟨rd1, rd2, rn1, rn2, aw1, aw2, pe1, pe2, ej1, ej2, js1, js2,
            je1, je2, me1, me2, cnt, f1, f2, fn1, fn2⟩
        | true =>
          have hent2 : c.ent2 = some ⟨true, res⟩ := hent
          refine ⟨(fun hx => nomatch hx), rd2, (fun hx => nomatch hx), rn2,
            (fun w' hx => nomatch hx), aw2,
            pe1, pe2, ej1, ej2, js1, js2, je1, je2, me1, me2, cnt, f1, f2,
            ?_, fn2⟩
          intro res' hx
          injection hx with hx'
          exact Or.inr ⟨hjoin, ⟨true, res⟩, hent2, rfl, hx'⟩
    | finished res =>
      rw [step1, hpc]
      exact ⟨rd1, rd2, rn1, rn2, aw1, aw2, pe1, pe2, ej1, ej2, js1, js2,
        je1, je2, me1, me2, cnt, f1, f2, fn1, fn2⟩
  | t2 =>
    rw [step]
    cases hpc : c.pc2 with
    | ready =>
      obtain ⟨hent, hjoin⟩ := rd2 hpc
      cases hpull : c.pulling with
      | some w =>
        rw [step2, hpc, hpull]
        cases w with
        | false =>
          exact absurd (me2 hpull) (by rw [hent]; simp)
        | true =>
          have hent1 : c.ent1.isSome := me1 hpull
          refine ⟨rd1, (fun hx => nomatch hx), rn1, (fun hx => nomatch hx),
            aw1, ?_, pe1, pe2,
            ej1, (fun hs => absurd hs (by rw [hent]; simp)),
            js1, ?_,
            je1, (fun _ => hent1), (fun _ => hent1), (fun hp => nomatch hp),
            cnt, f1, f2,
            fn1, (fun res hx => nomatch hx)⟩
          · intro w' hx
            injection hx with hx'
            rw [hx']
          · intro hc
            injection hc with hc'
            exact Bool.noConfusion hc'
      | none =>
        rw [step2, hpc, hpull]
        have hp2 : c.pulled2 = false := by
          by_cases hp : c.pulled2 = true
          · exact absurd (pe2 hp) (by rw [hent]; simp)
          · simpa using hp
        refine ⟨rd1, (fun hx => nomatch hx), rn1,
          (fun _ => ⟨rfl, hp2, hjoin⟩),
          aw1, (fun w hx => nomatch hx),
          pe1, (fun _ => rfl),
          ej1, (fun _ => hjoin),
          js1, js2,
          (fun _ => rfl), (fun hs => je2 hs),
          (fun hp => nomatch hp), (fun _ => rfl),
          cnt, f1, ?_,
          ?_, (fun res hx => nomatch hx)⟩
        · intro hp1 e he hd
          injection he with he'
          rw [← he'] at hd
          simp at hd
        · intro res hx
          rcases fn1 res hx with ⟨hj, e, he, hd, hr⟩ | ⟨hj, e, he, hd, hr⟩
          · exact Or.inl ⟨hj, e, he, hd, hr⟩
          · rw [hent] at he
            exact absurd he (by simp)
    | running =>
      obtain ⟨hent, hp2, hjoin⟩ := rn2 hpc
      rw [step2, hpc]
      refine ⟨rd1, (fun hx => nomatch hx), rn1, (fun hx => nomatch hx),
        aw1, (fun w hx => nomatch hx),
        pe1, (fun _ => rfl),
        ej1, (fun _ => hjoin),
        js1, (fun hc => absurd hc (by rw [hjoin]; simp)),
        (fun _ => rfl), (fun hs => je2 hs),
        me1, (fun _ => rfl),
        ?_, (fun hpf => nomatch hpf), ?_, ?_, ?_⟩
      · show c.pullCount + 1 = _
        rw [cnt, hp2]
        by_cases h1 : c.pulled1 = true <;> simp [h1]
      · intro hpf e he hd
        injection he with he'
        rw [← he'] at hd ⊢
        show (if c.pullCount = 0 then r1 else r2) = r1
        have h0 : c.pullCount = 0 := by
          have hpf' : c.pulled1 = false := hpf
          rw [cnt, hp2, hpf']
          decide
        rw [if_pos h0]
      · intro res' hx
        rcases fn1 res' hx with ⟨hj, e, he, hd, hr⟩ | ⟨hj, e, he, hd, hr⟩
        · exact Or.inl ⟨hj, e, he, hd, hr⟩
        · rw [hent] at he
          injection he with he'
          rw [← he'] at hd
          simp at hd
      · intro res' hx
        injection hx with hx'
        exact Or.inl ⟨hjoin, ⟨true, if c.pullCount = 0 then r1 else r2⟩,
          rfl, rfl, hx'⟩
    | awaitDone w =>
      have hjoin := aw2 w hpc
      have hw : w = true := by
        cases w
        · exact absurd hjoin (fun hc => js2 hc)
        · rfl
      subst hw
      have hstep2 : step2 r1 r2 c =
          (match entryOf c true with
           | some ⟨true, res⟩ => { c with pc2 := TPc.finished res }
           | _ => c) := by
        rw [step2, hpc]
      rw [hstep2]
      cases hent : entryOf c true with
      | none =>
        exact ⟨rd1, rd2, rn1, rn2, aw1, aw2, pe1, pe2, ej1, ej2, js1, js2,
          je1, je2, me1, me2, cnt, f1, f2, fn1, fn2⟩
      | some e =>
        obtain ⟨d, res⟩ := e
        cases d with
        | false =>
          exact ⟨rd1, rd2, rn1, rn2, aw1, aw2, pe1, pe2, ej1, ej2, js1, js2,
            je1, je2, me1, me2, cnt, f1, f2, fn1, fn2⟩
        | true =>
          have hent1 : c.ent1 = some ⟨true, res⟩ := hent
          refine ⟨rd1, (fun hx => nomatch hx), rn1, (fun hx => nomatch hx),
            aw1, (fun w' hx => nomatch hx),
            pe1, pe2, ej1, ej2, js1, js2, je1, je2, me1, me2, cnt, f1, f2,
            fn1, ?_⟩
          intro res' hx
          injection hx with hx'
          exact Or.inr ⟨hjoin, ⟨true, res⟩, hent1, rfl, hx'⟩
    | finished res =>
      rw [step2, hpc]
      exact ⟨rd1, rd2, rn1, rn2, aw1, aw2, pe1, pe2, ej1, ej2, js1, js2,
        je1, je2, me1, me2, cnt, f1, f2, fn1, fn2⟩

theorem inv_run (r1 r2 : Nat) (sched : List Label) :
    Inv r1 r2 (run r1 r2 init sched) := by
  have hgen : ∀ (sched : List Label) (c : Config), Inv r1 r2 c →
      Inv r1 r2 (run r1 r2 c sched) := by
    intro sched
    induction sched with
    | nil => intro c h; exact h
    | cons l rest ih =>
      intro c h
      exact ih (step r1 r2 c l) (inv_step r1 r2 c l h)
  exact hgen sched init (inv_init r1 r2)

end Proxy

namespace Proxy

theorem joined_of_inv (r1 r2 : Nat) (c : Config) (h : Inv r1 r2 c)
    (hjoined : c.joined1.isSome = true ∨ c.joined2.isSome = true) :
    c.pullCount ≤ 1 ∧
    ∀ a b, c.pc1 = TPc.finished a → c.pc2 = TPc.finished b → a = b := by
  obtain ⟨rd1, rd2, rn1, rn2, aw1, aw2, pe1, pe2, ej1, ej2, js1, js2, je1,
    je2, me1, me2, cnt, f1, f2, fn1, fn2⟩ := h
  rcases hjoined with hj | hj
  · obtain ⟨w, hw⟩ := Option.isSome_iff_exists.mp hj
    have hwf : w = false := by
      cases w
      · rfl
      · exact absurd hw (fun hc => js1 hc)
    subst hwf
    have hp1 : c.pulled1 = false := by
      by_cases hp : c.pulled1 = true
      · have := ej1 (pe1 hp)
        rw [hw] at this
        exact absurd this (by simp)
      · simpa using hp
    constructor
    · rw [cnt, hp1]
      by_cases h2 : c.pulled2 = true <;> simp [h2]
    · intro a b ha hb
      rcases fn1 a ha with ⟨hj1, _⟩ | ⟨_, e, he2, hd2, hr2⟩
      · rw [hw] at hj1
        exact absurd hj1 (by simp)
      · rcases fn2 b hb with ⟨_, e', he2', _, hr2'⟩ | ⟨hj2, _⟩
        · rw [he2] at he2'
          injection he2' with hee
          rw [← hr2, ← hr2', hee]
        · have := ej1 (je2 (by rw [hj2]; rfl))
          rw [hw] at this
          exact absurd this (by simp)
  · obtain ⟨w, hw⟩ := Option.isSome_iff_exists.mp hj
    have hwt : w = true := by
      cases w
      · exact absurd hw (fun hc => js2 hc)
      · rfl
    subst hwt
    have hp2 : c.pulled2 = false := by
      by_cases hp : c.pulled2 = true
      · have := ej2 (pe2 hp)
        rw [hw] at this
        exact absurd this (by simp)
      · simpa using hp
    constructor
    · rw [cnt, hp2]
      by_cases h1 : c.pulled1 = true <;> simp [h1]
    · intro a b ha hb
      rcases fn2 b hb with ⟨hj2, _⟩ | ⟨_, e, he1, hd1, hr1⟩
      · rw [hw] at hj2
        exact absurd hj2 (by simp)
      · rcases fn1 a ha with ⟨_, e', he1', _, hr1'⟩ | ⟨hj1, _⟩
        · rw [he1] at he1'
          injection he1' with hee
          rw [← hr1, ← hr1', hee]
        · have := ej2 (je1 (by rw [hj1]; rfl))
          rw [hw] at this
          exact absurd this (by simp)

/-- C6 (amended): in every interleaving of two concurrent requests for the
same uncached image in which one request joins the other's in-flight entry
(i.e. its map lookup finds the entry — the single-flight fast path), at
most one Puller is invoked and, whenever both requests finish, they observe
the same final result.  (As universally stated the claim is false: if the
first pull's asynchronous map-deletion runs before the second request's
lookup, a second Puller is invoked and the results may differ — see the
counterexample.) -/
theorem singleflight_joined_same_result (r1 r2 : Nat) (sched : List Label)
    (hjoined : (run r1 r2 init sched).joined1.isSome = true
      ∨ (run r1 r2 init sched).joined2.isSome = true) :
    (run r1 r2 init sched).pullCount ≤ 1 ∧
    ∀ a b, (run r1 r2 init sched).pc1 = TPc.finished a →
      (run r1 r2 init sched).pc2 = TPc.finished b → a = b :=
  joined_of_inv r1 r2 _ (inv_run r1 r2 sched) hjoined

/-- Witness for C6's amended theorem: request 2 joins while request 1 is in
flight; one pull happens and both finish with its result. -/
theorem singleflight_joined_same_result_witness :
    (run 5 7 init [.t1, .t2, .t1, .t2]).pullCount ≤ 1 ∧
    ∀ a b, (run 5 7 init [.t1, .t2, .t1, .t2]).pc1 = TPc.finished a →
      (run 5 7 init [.t1, .t2, .t1, .t2]).pc2 = TPc.finished b → a = b :=
  singleflight_joined_same_result 5 7 [.t1, .t2, .t1, .t2] (Or.inr (by decide))

end Proxy
